import Mathlib

/-
  Verification development for the word-search puzzle engine in
  `src/lib/wordsearch/wordsearch.ts`.

  The source is shallowly embedded: TypeScript numbers used as board
  coordinates become `Int`, board sizes and counters become `Nat`,
  the one-character strings stored per cell become `Option Char`
  (the empty string `""` is `none`), word text becomes `List Char`,
  fallible methods return `Except String` mirroring `throwError`,
  and every unbounded `while` loop of the source becomes a fueled
  structural recursion whose fuel provably suffices (each loop of the
  source walks a straight ray across the board, which takes at most
  `size` steps in a real direction).

  Randomness (`_.shuffle`, `Math.random`) is modelled by explicit
  parameters: the shuffled cell and direction orders of
  `fitWordInRandomPos` become list parameters, the random characters of
  `fillInRandomChars` become a function parameter, and the random word
  draws of `getRandomWordsFromDictionary` become a stream parameter.
-/

namespace WS

/-- The eight compass directions plus the `NONE` sentinel, mirroring the
`WSDirections` enum of the source. -/
inductive WSDirections
  | UP
  | DOWN
  | LEFT
  | RIGHT
  | UP_RIGHT
  | UP_LEFT
  | DOWN_RIGHT
  | DOWN_LEFT
  | NONE
deriving DecidableEq

/-- The configured letter case, mirroring the `WSCase` enum. -/
inductive WSCase
  | LOWER
  | UPPER
deriving DecidableEq

/-- Two dimensional integer vector, mirroring `Vector2D` of the source
(`x` is the row index, `y` the column index, as in `board[x][y]`). -/
structure Vector2D where
  x : Int
  y : Int
deriving DecidableEq

/-- A direction is real when it is one of the 8 compass directions, not the
`NONE` sentinel.  The spec restricts the configured allowed directions to
the 8 real directions. -/
def realDir (d : WSDirections) : Prop := d ≠ WSDirections.NONE

instance (d : WSDirections) : Decidable (realDir d) := by
  unfold realDir
  infer_instance

/-- Unit vector of a direction, mirroring the `directions2D` table of the
source indexed by the enum value (`UP` is `{x:-1,y:0}`, `RIGHT` is
`{x:0,y:1}`, and the `NONE` sentinel maps to the zero vector). -/
def getDirectionVector : WSDirections → Vector2D
  | .UP => ⟨-1, 0⟩
  | .DOWN => ⟨1, 0⟩
  | .LEFT => ⟨0, -1⟩
  | .RIGHT => ⟨0, 1⟩
  | .UP_RIGHT => ⟨-1, 1⟩
  | .UP_LEFT => ⟨-1, -1⟩
  | .DOWN_RIGHT => ⟨1, 1⟩
  | .DOWN_LEFT => ⟨1, -1⟩
  | .NONE => ⟨0, 0⟩

/-- Mirrors `isVectorInBoard`: both coordinates lie in `[0, size)`. -/
def isVectorInBoard (size : Nat) (vector : Vector2D) : Bool :=
  decide (0 ≤ vector.x) && decide (vector.x < (size : Int)) &&
    decide (0 ≤ vector.y) && decide (vector.y < (size : Int))

/-- Mirrors `moveInDirection`: add the direction vector and return the new
position when it stays on the board, `null` (here `none`) otherwise. -/
def moveInDirection (size : Nat) (startPos : Vector2D) (direction : WSDirections) :
    Option Vector2D :=
  let dv := getDirectionVector direction
  let newVector : Vector2D := ⟨startPos.x + dv.x, startPos.y + dv.y⟩
  if isVectorInBoard size newVector then some newVector else none

/-- The position reached after `k` steps from `start` in direction `d`. -/
def stepN (start : Vector2D) (d : WSDirections) (k : Nat) : Vector2D :=
  ⟨start.x + k * (getDirectionVector d).x, start.y + k * (getDirectionVector d).y⟩

/-- One cell of the board, mirroring `Cell` of the source.  The `letter`
field is `none` while the cell is still the empty string.  The `pos` field
of the source is redundant with the cell's indices in the board matrix and
is carried by those indices here. -/
structure Cell where
  letter : Option Char
  shown : Bool
  found : Bool
  selected : Bool
  selectable : Bool
  highlighted : Bool
deriving DecidableEq

/-- The board is the `size × size` matrix `board[x][y]` of the source. -/
abbrev Board := List (List Cell)

/-- Placeholder returned when a cell access falls outside the matrix.  The
source would raise a `TypeError` there; no claim exercises such an access,
and all flags of this placeholder are false so it is never selectable. -/
def inertCell : Cell := ⟨none, false, false, false, false, false⟩

/-- A fresh cell as produced by `getBlankBoard`: empty letter,
`selectable` true, every other flag false. -/
def blankCell : Cell := ⟨none, false, false, false, true, false⟩

/-- Mirror of `getBlankBoard`. -/
def getBlankBoard (size : Nat) : Board :=
  List.replicate size (List.replicate size blankCell)

/-- Read `board[p.x][p.y]`. -/
def cellAt (b : Board) (p : Vector2D) : Cell :=
  if 0 ≤ p.x ∧ 0 ≤ p.y then
    (((b.get? p.x.toNat).getD []).get? p.y.toNat).getD inertCell
  else inertCell

/-- In-place update of one list entry; identity when the index is out of
range.  Used to model assignments like `board[x][y].field = v`. -/
def listModify (f : α → α) : Nat → List α → List α
  | _, [] => []
  | 0, a :: as => f a :: as
  | n + 1, a :: as => a :: listModify f n as

/-- Update the cell `board[p.x][p.y]` by `f` (identity when out of range). -/
def updateCell (b : Board) (p : Vector2D) (f : Cell → Cell) : Board :=
  if 0 ≤ p.x ∧ 0 ≤ p.y then listModify (listModify f p.y.toNat) p.x.toNat b
  else b

/-- Mirror of `setCellFieldTo` with a transform: apply `f` to every cell of
the board. -/
def setCellFieldTo (f : Cell → Cell) (b : Board) : Board :=
  b.map (fun row => row.map f)

/-- A placed word record, mirroring `Word` of the source. -/
structure Word where
  word : List Char
  pos : List Vector2D
  found : Bool
  shown : Bool
deriving DecidableEq

/-- Mirror of `WordDrawInstruction`. -/
structure WordDrawInstruction where
  word : List Char
  startPos : Vector2D
  direction : WSDirections
deriving DecidableEq

/-- Mirror of `WordsearchOutput`. -/
structure WordsearchOutput where
  board : Board
  words : List Word
  currentWord : List Char
  endGame : Bool
  error : String
deriving DecidableEq

/-- Mirror of `getStrInCase`: upper- or lower-case a string according to the
configured case. -/
def getStrInCase (c : WSCase) (s : List Char) : List Char :=
  match c with
  | .UPPER => s.map Char.toUpper
  | .LOWER => s.map Char.toLower

/-! ## Word placement: collision and fit checks -/

/-- Mirror of `isCharCollision`: when overlap is allowed an equal existing
letter is no collision; otherwise any non-empty existing letter collides. -/
def isCharCollision (allowWordOverlap : Bool) (b : Board) (char : Char)
    (pos : Vector2D) : Bool :=
  if allowWordOverlap && ((cellAt b pos).letter == some char) then false
  else (cellAt b pos).letter.isSome

/-- Loop body of `doesWordCollide`: check the current letter, then advance;
a failed advance returns `true` even after the final letter. -/
def doesWordCollideAux (size : Nat) (overlap : Bool) (b : Board)
    (direction : WSDirections) : Vector2D → List Char → Bool
  | _, [] => false
  | p, c :: rest =>
    if isCharCollision overlap b c p then true
    else
      match moveInDirection size p direction with
      | some np => doesWordCollideAux size overlap b direction np rest
      | none => true

/-- Mirror of `doesWordCollide`. -/
def doesWordCollide (size : Nat) (overlap : Bool) (b : Board) (word : List Char)
    (startPos : Vector2D) (direction : WSDirections) : Bool :=
  doesWordCollideAux size overlap b direction startPos word

/-- Loop body of `doesWordFit`: advance `word.length` times, failing only
when a `null` is seen at the top of an iteration (so the final advance is
never checked). -/
def doesWordFitAux (size : Nat) (direction : WSDirections) :
    Option Vector2D → Nat → Bool
  | _, 0 => true
  | none, _ + 1 => false
  | some v, n + 1 => doesWordFitAux size direction (moveInDirection size v direction) n

/-- Mirror of `doesWordFit`: the start cell is on the board and walking
`word.length - 1` steps stays on the board. -/
def doesWordFit (size : Nat) (word : List Char) (startPos : Vector2D)
    (direction : WSDirections) : Bool :=
  if !isVectorInBoard size startPos then false
  else doesWordFitAux size direction (some startPos) word.length

/-! ## Drawing words and allocating them on the board -/

/-- Loop of `drawWordInBoard` for the letters after the first: advance, write
the letter, record the position.  The source's loop would fault if an
advance failed before the last letter; that is unreachable because the
instruction has passed `doesWordFit`. -/
def drawWordAux (size : Nat) (direction : WSDirections) :
    Board → List Vector2D → Vector2D → List Char → Board × List Vector2D
  | b, acc, _, [] => (b, acc.reverse)
  | b, acc, p, c :: rest =>
    match moveInDirection size p direction with
    | some np =>
      drawWordAux size direction
        (updateCell b np (fun cell => { cell with letter := some c }))
        (np :: acc) np rest
    | none => (b, acc.reverse)

/-- Mirror of `drawWordInBoard`: write the letters along the path and append
the `Word` record to the registry. -/
def drawWordInBoard (size : Nat) (b : Board) (words : List Word)
    (wd : WordDrawInstruction) : Board × List Word :=
  let b1 := updateCell b wd.startPos (fun cell => { cell with letter := wd.word.get? 0 })
  let res := drawWordAux size wd.direction b1 [wd.startPos] wd.startPos wd.word.tail
  (res.1, words ++ [{ word := wd.word, pos := res.2, found := false, shown := false }])

/-- Candidate scan of `fitWordInRandomPos`: pop candidate start cells in the
given (shuffled) order and take the first direction in the given (shuffled)
order that fits without collision. -/
def fitWordInRandomPosAux (size : Nat) (overlap : Bool) (b : Board)
    (word : List Char) (directions : List WSDirections) :
    List Vector2D → Option WordDrawInstruction
  | [] => none
  | cellPos :: rest =>
    match directions.find? (fun d =>
        doesWordFit size word cellPos d && !doesWordCollide size overlap b word cellPos d) with
    | some d => some ⟨word, cellPos, d⟩
    | none => fitWordInRandomPosAux size overlap b word directions rest

/-- Mirror of `fitWordInRandomPos`; the shuffled cell order and shuffled
direction order are explicit parameters. -/
def fitWordInRandomPos (size : Nat) (overlap : Bool) (b : Board) (word : List Char)
    (cells : List Vector2D) (directions : List WSDirections) :
    Except String WordDrawInstruction :=
  match fitWordInRandomPosAux size overlap b word directions cells with
  | some wd => .ok wd
  | none => .error ("Could not fit word in board: " ++ String.mk word)

/-- Mirror of `allocateWordsInBoard`: place the words in order, each with its
own shuffled cell/direction orders taken from `oracle`. -/
def allocateWordsInBoard (size : Nat) (overlap : Bool) :
    Board → List Word → List (List Char) →
    List (List Vector2D × List WSDirections) → Except String (Board × List Word)
  | b, ws, [], _ => .ok (b, ws)
  | b, ws, word :: rest, oracle =>
    let o := oracle.headD ([], [])
    match fitWordInRandomPos size overlap b word o.1 o.2 with
    | .ok wd =>
      let res := drawWordInBoard size b ws wd
      allocateWordsInBoard size overlap res.1 res.2 rest oracle.tail
    | .error e => .error e

/-- Row-major list of all board positions, the iteration order of the nested
`for` loops of the source. -/
def allPositions (size : Nat) : List Vector2D :=
  (List.range size).flatMap (fun x => (List.range size).map (fun y => ⟨(x : Int), (y : Int)⟩))

/-- One step of `fillInRandomChars`: write a random character when the cell
letter is still empty. -/
def fillInRandomCharsStep (rnd : Vector2D → Char) (b : Board) (p : Vector2D) : Board :=
  if (cellAt b p).letter = none then
    updateCell b p (fun c => { c with letter := some (rnd p) })
  else b

/-- Mirror of `fillInRandomChars`; `rnd` models the stream of random
characters produced by `getRandomChar`. -/
def fillInRandomChars (size : Nat) (rnd : Vector2D → Char) (b : Board) : Board :=
  (allPositions size).foldl (fillInRandomCharsStep rnd) b

/-! ## Word registry -/

/-- Scan of `getWordIndex` with the running index. -/
def getWordIndexAux (word : List Char) : List Word → Nat → Int
  | [], _ => -1
  | w :: rest, i => if w.word = word then (i : Int) else getWordIndexAux word rest (i + 1)

/-- Mirror of `getWordIndex`: index of the first registry entry whose text is
strictly equal (`===`) to the query, `-1` when none is. -/
def getWordIndex (words : List Word) (word : List Char) : Int :=
  getWordIndexAux word words 0

/-- Mirror of `checkEnd`.  The loop of the source iterates `w` over
`0 ≤ w < config.size` (the board size), counting the registry entries at
those indices that are found or shown, and compares the count with the
total number of registry entries. -/
def checkEnd (size : Nat) (words : List Word) : Bool :=
  let fORd := ((List.range size).filter (fun w =>
    match words.get? w with
    | some wrd => wrd.found || wrd.shown
    | none => false)).length
  fORd == words.length

/-! ## Dictionary sourcing -/

/-- Mirror of `wordCriteria`: non-empty, not already chosen, length within
the configured inclusive range.  (The `typeof word === "string"` check of
the source is a tautology here.) -/
def wordCriteria (minLength maxLength : Nat) (word : List Char)
    (list : List (List Char)) : Bool :=
  decide (0 < word.length) && !(decide (word ∈ list)) &&
    decide (minLength ≤ word.length) && decide (word.length ≤ maxLength)

/-- Loop of `getRandomWordsFromDictionary` on the remaining `tries` budget:
the `while` condition is re-checked at each entry, one word is drawn per
iteration, `tries` is decremented after every draw (accepted or not) and the
loop throws as soon as it reaches zero, before re-checking the condition. -/
def getRandomWordsFromDictionaryAux (draws : Nat → List Char)
    (amount minLength maxLength : Nat) :
    Nat → List (List Char) → Nat → Except String (List (List Char))
  | 0, words, _ =>
    if amount ≤ words.length then .ok words
    else .error "Not enough words in dictionary."
  | t + 1, words, idx =>
    if amount ≤ words.length then .ok words
    else
      let w := draws idx
      let words2 := if wordCriteria minLength maxLength w words then words ++ [w] else words
      if t = 0 then .error "Not enough words in dictionary."
      else getRandomWordsFromDictionaryAux draws amount minLength maxLength t words2 (idx + 1)

/-- Mirror of `getRandomWordsFromDictionary` with its initial budget of 100
draws; `draws` models the stream of random words from `getRandomWord`. -/
def getRandomWordsFromDictionary (draws : Nat → List Char)
    (amount minLength maxLength : Nat) : Except String (List (List Char)) :=
  getRandomWordsFromDictionaryAux draws amount minLength maxLength 100 [] 0

/-- Word selection with an explicit budget of total draws: stop successfully
as soon as `amount` words are accepted, fail when the budget of draws runs
out first.  Acceptance reuses the source's `wordCriteria`.  Used to state
the corrected behaviour of `getRandomWordsFromDictionary`. -/
def selectionWithBudget (draws : Nat → List Char) (amount minLength maxLength : Nat) :
    Nat → List (List Char) → Nat → Option (List (List Char))
  | 0, words, _ => if amount ≤ words.length then some words else none
  | b + 1, words, idx =>
    if amount ≤ words.length then some words
    else
      let w := draws idx
      let words2 := if wordCriteria minLength maxLength w words then words ++ [w] else words
      selectionWithBudget draws amount minLength maxLength b words2 (idx + 1)

/-- Modelled from the spec: `randomSelection` as the spec words it, stopping
as soon as `amount` words are accepted and failing fatally only after 100
unsuccessful draws.  The fuel `100 + amount` strictly bounds the number of
iterations (at most 100 rejections and `amount - 1` acceptances occur before
a verdict).  Acceptance reuses the source's `wordCriteria`. -/
def randomSelectionSpecAux (draws : Nat → List Char) (amount minLength maxLength : Nat) :
    Nat → Nat → List (List Char) → Nat → Option (List (List Char))
  | 0, _, words, _ => if amount ≤ words.length then some words else none
  | f + 1, misses, words, idx =>
    if amount ≤ words.length then some words
    else if 100 ≤ misses then none
    else
      let w := draws idx
      if wordCriteria minLength maxLength w words then
        randomSelectionSpecAux draws amount minLength maxLength f misses (words ++ [w]) (idx + 1)
      else
        randomSelectionSpecAux draws amount minLength maxLength f (misses + 1) words (idx + 1)

/-- Modelled from the spec: see `randomSelectionSpecAux`. -/
def randomSelectionSpec (draws : Nat → List Char) (amount minLength maxLength : Nat) :
    Option (List (List Char)) :=
  randomSelectionSpecAux draws amount minLength maxLength (100 + amount) 0 [] 0

/-! ## The whole-puzzle retry loop of `generate` -/

/-- `Error.prototype.toString` of a thrown error message. -/
def errToString (e : String) : String := "Error: " ++ e

/-- The fatal message built by `generate` when the retry budget is spent. -/
def maxIterationsError (e : String) : String :=
  "Unable to generate game, max amount of iterations reached. " ++ errToString e

/-- The retry loop of `generate`, abstracted over the outcome of each whole
attempt (each attempt draws fresh words and a fresh blank board, so the
attempts are modelled as a stream indexed by the attempt number, which
equals the `generationTimes` counter).  A failed attempt increments
`generationTimes` and retries unless the counter exceeds 50, in which case
a fatal error carrying the last failure is raised.  The fuel argument is
initialised to 50, exactly the number of retries the counter admits, so the
fuel-exhaustion branch coincides with the counter check of the source. -/
def generateAux (attempts : Nat → Except String WordsearchOutput) :
    Nat → Nat → Except String WordsearchOutput
  | 0, times =>
    match attempts times with
    | .ok o => .ok o
    | .error e => .error (maxIterationsError e)
  | fuel + 1, times =>
    match attempts times with
    | .ok o => .ok o
    | .error e =>
      if 50 < times + 1 then .error (maxIterationsError e)
      else generateAux attempts fuel (times + 1)

/-- The retry loop of `generate` started from a fresh instance
(`generationTimes = 0`). -/
def generateModel (attempts : Nat → Except String WordsearchOutput) :
    Except String WordsearchOutput :=
  generateAux attempts 50 0

/-! ## Selection state machine -/

/-- The configuration fields consumed by the play operations, mirroring the
corresponding fields of `WordsearchConfig`. -/
structure WSConfig where
  size : Nat
  allowedDirections : List WSDirections
  allowWordOverlap : Bool
deriving DecidableEq

/-- The mutable play state: the `output` fields of the source instance
together with its private selection fields.  The dead `selectedDirection`
field of the source (written but never read) is omitted. -/
structure WSState where
  board : Board
  words : List Word
  currentWord : List Char
  endGame : Bool
  error : String
  selectedCount : Nat
  lastSelectedVector : Option Vector2D
deriving DecidableEq

/-- The `allDirections` instance field of the source, in its order. -/
def allDirections : List WSDirections :=
  [.DOWN, .DOWN_LEFT, .DOWN_RIGHT, .UP, .UP_LEFT, .UP_RIGHT, .LEFT, .RIGHT]

/-- The local direction list of `getAdjacentSelectedVectorDirection`, in its
order (it differs from `allDirections`). -/
def adjacentScanDirections : List WSDirections :=
  [.DOWN, .DOWN_LEFT, .DOWN_RIGHT, .LEFT, .RIGHT, .UP, .UP_LEFT, .UP_RIGHT]

/-- Cells visited by a `while (v) { ...; v = moveInDirection(v, d) }` ray
walk, starting from an already-advanced optional position.  The fuel is set
to `size` by the callers, which suffices in every real direction because a
straight ray leaves the board after at most `size` steps. -/
def rayListAux (size : Nat) (d : WSDirections) : Nat → Option Vector2D → List Vector2D
  | 0, _ => []
  | _ + 1, none => []
  | fuel + 1, some v => v :: rayListAux size d fuel (moveInDirection size v d)

/-- The cells strictly after `p` on the ray from `p` in direction `d`. -/
def rayList (size : Nat) (p : Vector2D) (d : WSDirections) : List Vector2D :=
  rayListAux size d size (moveInDirection size p d)

/-- Mirror of `getDirectionFrom2Vectors`: the first of the 8 real directions
whose ray from `vector1` passes through `vector2`. -/
def getDirectionFrom2Vectors (size : Nat) (vector1 vector2 : Vector2D) :
    Option WSDirections :=
  allDirections.find? (fun d => decide (vector2 ∈ rayList size vector1 d))

/-- Mirror of `getAdjacentSelectedVectorDirection`: the first scanned
direction whose adjacent cell exists and is selected. -/
def getAdjacentSelectedVectorDirection (size : Nat) (b : Board) (vector : Vector2D) :
    Option WSDirections :=
  adjacentScanDirections.find? (fun d =>
    match moveInDirection size vector d with
    | some nv => (cellAt b nv).selected
    | none => false)

/-- Mirror of `getInverseDirection`. -/
def getInverseDirection : WSDirections → Option WSDirections
  | .UP => some .DOWN
  | .DOWN => some .UP
  | .LEFT => some .RIGHT
  | .RIGHT => some .LEFT
  | .UP_RIGHT => some .DOWN_LEFT
  | .UP_LEFT => some .DOWN_RIGHT
  | .DOWN_RIGHT => some .UP_LEFT
  | .DOWN_LEFT => some .UP_RIGHT
  | .NONE => none

/-- Mark every cell of a ray selectable, as the marking loops of
`calculateSelectables` do. -/
def markRaySelectable (size : Nat) (b : Board) (origin : Vector2D) (d : WSDirections) :
    Board :=
  (rayList size origin d).foldl
    (fun bb q => updateCell bb q (fun c => { c with selectable := true })) b

/-- Mirror of `calculateSelectables` with its three sequential blocks on the
current selected count. -/
def calculateSelectables (cfg : WSConfig) (count : Nat)
    (lastSelection : Option Vector2D) (b : Board) : Board :=
  let b1 := if count = 0 then setCellFieldTo (fun c => { c with selectable := true }) b else b
  let b2 :=
    if count = 1 then
      match lastSelection with
      | some ls =>
        cfg.allowedDirections.foldl (fun bb d => markRaySelectable cfg.size bb ls d)
          (setCellFieldTo (fun c => { c with selectable := false }) b1)
      | none => b1
    else b1
  if 1 < count then
    let bb := setCellFieldTo (fun c => { c with selectable := false }) b2
    match lastSelection with
    | some ls =>
      match getAdjacentSelectedVectorDirection cfg.size bb ls with
      | some sd =>
        match getInverseDirection sd with
        | some inv => markRaySelectable cfg.size bb ls inv
        | none => bb
      | none => bb
    | none => bb
  else b2

/-- The marking walk of `selectCell` toward a target cell: select each
visited cell, append its letter to the current word, bump the count, and
stop once the target has been processed.  (Reading the letter before or
after setting the `selected` flag is equivalent.) -/
def selWalk (size : Nat) (d : WSDirections) (target : Vector2D) :
    Nat → Option Vector2D → Board → List Char → Nat → Board × List Char × Nat
  | 0, _, b, w, cnt => (b, w, cnt)
  | _ + 1, none, b, w, cnt => (b, w, cnt)
  | fuel + 1, some v, b, w, cnt =>
    let b2 := updateCell b v (fun c => { c with selected := true })
    let w2 := w ++ (cellAt b v).letter.toList
    if v = target then (b2, w2, cnt + 1)
    else selWalk size d target fuel (moveInDirection size v d) b2 w2 (cnt + 1)

/-- Mirror of `selectCell`. -/
def selectCell (cfg : WSConfig) (s : WSState) (pos : Vector2D) : Bool × WSState :=
  if (cellAt s.board pos).selectable then
    match s.lastSelectedVector with
    | none =>
      let b2 := updateCell s.board pos (fun c => { c with selected := true })
      let cw := s.currentWord ++ (cellAt s.board pos).letter.toList
      let b3 := calculateSelectables cfg (s.selectedCount + 1) (some pos) b2
      (true,
        { s with
            board := b3
            currentWord := cw
            selectedCount := s.selectedCount + 1
            lastSelectedVector := some pos })
    | some last =>
      match getDirectionFrom2Vectors cfg.size last pos with
      | some d =>
        let res := selWalk cfg.size d pos cfg.size (moveInDirection cfg.size last d)
          s.board s.currentWord s.selectedCount
        let b3 := calculateSelectables cfg res.2.2 (some pos) res.1
        (true,
          { s with
              board := b3
              currentWord := res.2.1
              selectedCount := res.2.2
              lastSelectedVector := some pos })
      | none => (false, s)
  else (false, s)

/-- Mirror of `resetCurrentSelection`. -/
def resetCurrentSelection (cfg : WSConfig) (s : WSState) : WSState :=
  let b1 := setCellFieldTo (fun c => { c with selected := false }) s.board
  let b2 := setCellFieldTo (fun c => { c with highlighted := false }) b1
  let b3 := calculateSelectables cfg 0 none b2
  { s with selectedCount := 0, currentWord := [], lastSelectedVector := none, board := b3 }

/-- Mirror of `setWordAsFound`. -/
def setWordAsFound (s : WSState) (wordIndex : Nat) : WSState :=
  match s.words.get? wordIndex with
  | some w =>
    { s with
      board := w.pos.foldl (fun b p => updateCell b p (fun c => { c with found := true })) s.board,
      words := listModify (fun w2 => { w2 with found := true }) wordIndex s.words }
  | none => s

/-- Mirror of `discoverWord`. -/
def discoverWord (s : WSState) (wordIndex : Nat) : WSState :=
  match s.words.get? wordIndex with
  | some w =>
    { s with
      board := w.pos.foldl (fun b p => updateCell b p (fun c => { c with shown := true })) s.board,
      words := listModify (fun w2 => { w2 with shown := true }) wordIndex s.words }
  | none => s

/-- Mirror of `showWord`: look the text up and discover or mark found. -/
def showWordModel (s : WSState) (word : List Char) (submit : Bool) : Bool × WSState :=
  let index := getWordIndex s.words word
  let s2 :=
    if 0 ≤ index ∧ ¬submit then discoverWord s index.toNat
    else if 0 ≤ index ∧ submit then setWordAsFound s index.toNat
    else s
  (decide (0 ≤ index), s2)

/-- Mirror of `submitCurrentWord`. -/
def submitCurrentWord (cfg : WSConfig) (s : WSState) : Bool × WSState :=
  let res := showWordModel s s.currentWord true
  let s2 := resetCurrentSelection cfg res.2
  (res.1, { s2 with endGame := checkEnd cfg.size s2.words })

/-- The highlighting walk of `hightlightCells`. -/
def hlWalk (size : Nat) (d : WSDirections) (target : Vector2D) :
    Nat → Option Vector2D → Board → Board
  | 0, _, b => b
  | _ + 1, none, b => b
  | fuel + 1, some v, b =>
    let b2 := updateCell b v (fun c => { c with highlighted := true })
    if v = target then b2 else hlWalk size d target fuel (moveInDirection size v d) b2

/-- Mirror of `hightlightCells` (spelling as in the source). -/
def hightlightCells (cfg : WSConfig) (b : Board) (origin target : Vector2D) : Board :=
  let b1 := setCellFieldTo (fun c => { c with highlighted := false }) b
  match getDirectionFrom2Vectors cfg.size origin target with
  | some d => hlWalk cfg.size d target cfg.size (moveInDirection cfg.size origin d) b1
  | none => b1

/-- Mirror of `highlightCell`. -/
def highlightCell (cfg : WSConfig) (s : WSState) (pos : Vector2D) : Bool × WSState :=
  match s.lastSelectedVector with
  | some last => (true, { s with board := hightlightCells cfg s.board last pos })
  | none => (false, s)

/-- Mirror of `unHighlightBoard`. -/
def unHighlightBoard (s : WSState) : WSState :=
  { s with board := setCellFieldTo (fun c => { c with highlighted := false }) s.board }

/-! ## Play operation sequences and the selection-order history -/

/-- One public play operation. -/
inductive PlayOp
  | selectOp (pos : Vector2D)
  | resetOp
  | submitOp
  | highlightOp (pos : Vector2D)
  | unhighlightOp
  | showWordOp (word : List Char) (submit : Bool)
deriving DecidableEq

/-- Positions visited by the marking walk of `selectCell`, in visit order. -/
def walkPositions (size : Nat) (d : WSDirections) (target : Vector2D) :
    Nat → Option Vector2D → List Vector2D
  | 0, _ => []
  | _ + 1, none => []
  | fuel + 1, some v =>
    if v = target then [v]
    else v :: walkPositions size d target fuel (moveInDirection size v d)

/-- The cells a `selectCell` call newly selects, in the order it selects
them (empty when the call is rejected). -/
def selPathOf (cfg : WSConfig) (s : WSState) (pos : Vector2D) : List Vector2D :=
  if (cellAt s.board pos).selectable then
    match s.lastSelectedVector with
    | none => [pos]
    | some last =>
      match getDirectionFrom2Vectors cfg.size last pos with
      | some d => walkPositions cfg.size d pos cfg.size (moveInDirection cfg.size last d)
      | none => []
  else []

/-- Apply one play operation, also maintaining the ghost history of the
cells of the current selection in the order they were selected. -/
def applyPlayOpG (cfg : WSConfig) : WSState × List Vector2D → PlayOp → WSState × List Vector2D
  | (s, hist), .selectOp pos => ((selectCell cfg s pos).2, hist ++ selPathOf cfg s pos)
  | (s, _), .resetOp => (resetCurrentSelection cfg s, [])
  | (s, _), .submitOp => ((submitCurrentWord cfg s).2, [])
  | (s, hist), .highlightOp pos => ((highlightCell cfg s pos).2, hist)
  | (s, hist), .unhighlightOp => (unHighlightBoard s, hist)
  | (s, hist), .showWordOp w sub => ((showWordModel s w sub).2, hist)

/-- Run a sequence of play operations from a freshly reset state, as play
begins after a successful `generate` (which resets the selection). -/
def runPlay (cfg : WSConfig) (init : WSState) (ops : List PlayOp) :
    WSState × List Vector2D :=
  ops.foldl (applyPlayOpG cfg) (resetCurrentSelection cfg init, [])

/-! ## Specification-level predicates -/

/-- Well-formed `size × size` board matrix. -/
def BoardWf (size : Nat) (b : Board) : Prop :=
  b.length = size ∧ ∀ row ∈ b, row.length = size

/-- A cell `q` is reachable from `p` by repeatedly stepping in direction
`d` while staying on the board. -/
def ReachableBy (size : Nat) (p : Vector2D) (d : WSDirections) (q : Vector2D) : Prop :=
  ∃ k : Nat, 1 ≤ k ∧ q = stepN p d k ∧
    ∀ i : Nat, 1 ≤ i → i ≤ k → isVectorInBoard size (stepN p d i) = true

/-- The letters read off the board along a list of cells, in order. -/
def lettersAlong (b : Board) (ps : List Vector2D) : List Char :=
  ps.flatMap (fun p => (cellAt b p).letter.toList)

/-- The `n` cells of a straight run from `start` in direction `d`. -/
def wordPathPos (start : Vector2D) (d : WSDirections) (n : Nat) : List Vector2D :=
  (List.range n).map (stepN start d)

/-- Configuration sanity used by the play-state theorems: positive board
size and allowed directions drawn from the 8 real directions, as the spec's
configuration surface requires. -/
def WSConfigWf (cfg : WSConfig) : Prop :=
  0 < cfg.size ∧ ∀ d ∈ cfg.allowedDirections, realDir d

/-- No selection in progress: counters cleared and every cell selectable. -/
def SelIdle (cfg : WSConfig) (s : WSState) : Prop :=
  s.selectedCount = 0 ∧ s.lastSelectedVector = none ∧ s.currentWord = [] ∧
  (∀ p, isVectorInBoard cfg.size p = true → (cellAt s.board p).selected = false) ∧
  (∀ p, isVectorInBoard cfg.size p = true → (cellAt s.board p).selectable = true)

/-- One cell selected at the anchor `a`: exactly `a` is selected, the word
is its letter, and the selectable cells are those reachable from `a` along
a configured allowed direction. -/
def SelAnchored (cfg : WSConfig) (s : WSState) (a : Vector2D) : Prop :=
  s.selectedCount = 1 ∧ s.lastSelectedVector = some a ∧
  isVectorInBoard cfg.size a = true ∧
  s.currentWord = (cellAt s.board a).letter.toList ∧
  (∀ p, isVectorInBoard cfg.size p = true →
    ((cellAt s.board p).selected = true ↔ p = a)) ∧
  (∀ p, isVectorInBoard cfg.size p = true →
    ((cellAt s.board p).selectable = true ↔
      ∃ d ∈ cfg.allowedDirections, ReachableBy cfg.size a d p))

/-- Direction locked: the selected cells form the straight run of `n ≥ 2`
cells from `a` in direction `d`, the word is its letters in order, the last
selected cell is its endpoint and the selectable cells are those on the ray
extending the run. -/
def SelDirected (cfg : WSConfig) (s : WSState) (a : Vector2D) (d : WSDirections)
    (n : Nat) : Prop :=
  realDir d ∧ 2 ≤ n ∧ s.selectedCount = n ∧
  (∀ k, k < n → isVectorInBoard cfg.size (stepN a d k) = true) ∧
  s.lastSelectedVector = some (stepN a d (n - 1)) ∧
  s.currentWord = lettersAlong s.board (wordPathPos a d n) ∧
  (∀ p, isVectorInBoard cfg.size p = true →
    ((cellAt s.board p).selected = true ↔ p ∈ wordPathPos a d n)) ∧
  (∀ p, isVectorInBoard cfg.size p = true →
    ((cellAt s.board p).selectable = true ↔
      ReachableBy cfg.size (stepN a d (n - 1)) d p))

/-- Invariant of the selection machine, together with the link between the
state and the ghost selection-order history. -/
def SelInv (cfg : WSConfig) (sh : WSState × List Vector2D) : Prop :=
  BoardWf cfg.size sh.1.board ∧
  ((SelIdle cfg sh.1 ∧ sh.2 = []) ∨
   (∃ a, SelAnchored cfg sh.1 a ∧ sh.2 = [a]) ∨
   (∃ a d n, SelDirected cfg sh.1 a d n ∧ sh.2 = wordPathPos a d n))

/-- Everything `drawWordInBoard` guarantees for one registry entry of a
successfully placed word: non-empty text, positions forming a straight run
of one cell per letter in a real direction, all on the board, and the board
holding the word's letters along that run. -/
def PlacedOk (size : Nat) (b : Board) (w : Word) : Prop :=
  w.word ≠ [] ∧
  ∃ start d, realDir d ∧ w.pos = wordPathPos start d w.word.length ∧
    (∀ k, k < w.word.length → isVectorInBoard size (stepN start d k) = true) ∧
    (∀ k c, w.word.get? k = some c → (cellAt b (stepN start d k)).letter = some c)

/-- Invariant maintained while `allocateWordsInBoard` places the words. -/
def PlaceInv (size : Nat) (overlap : Bool) (b : Board) (ws : List Word) : Prop :=
  BoardWf size b ∧ (∀ w ∈ ws, PlacedOk size b w) ∧
  (overlap = false →
    List.Pairwise (fun w1 w2 => ∀ p, p ∈ w1.pos → p ∉ w2.pos) ws)

/-! ## Concrete generation runs used as evaluation points -/

/-- One-word generation input: the word "ab". -/
def claim2DemoWords : List (List Char) := [['a', 'b']]

/-- Shuffled-order oracle for the one-word run: start cell (0,0), RIGHT. -/
def claim2DemoOracle : List (List Vector2D × List WSDirections) :=
  [([⟨0, 0⟩], [.RIGHT])]

/-- The one-word generation run on a blank 6×6 board with overlap on. -/
def claim2DemoResult : Except String (Board × List Word) :=
  allocateWordsInBoard 6 true (getBlankBoard 6) [] claim2DemoWords claim2DemoOracle

/-- Board produced by the one-word run. -/
def claim2DemoBoard : Board :=
  match claim2DemoResult with
  | .ok r => r.1
  | .error _ => []

/-- Registry produced by the one-word run. -/
def claim2DemoRegistry : List Word :=
  match claim2DemoResult with
  | .ok r => r.2
  | .error _ => []

/-- Two-word generation input: "ab" and "cd". -/
def claim8DemoWords : List (List Char) := [['a', 'b'], ['c', 'd']]

/-- Shuffled-order oracle for the two-word run. -/
def claim8DemoOracle : List (List Vector2D × List WSDirections) :=
  [([⟨0, 0⟩], [.RIGHT]), ([⟨2, 0⟩], [.RIGHT])]

/-- The two-word generation run on a blank 6×6 board with overlap off. -/
def claim8DemoResult : Except String (Board × List Word) :=
  allocateWordsInBoard 6 false (getBlankBoard 6) [] claim8DemoWords claim8DemoOracle

/-- Board produced by the two-word run. -/
def claim8DemoBoard : Board :=
  match claim8DemoResult with
  | .ok r => r.1
  | .error _ => []

/-- Registry produced by the two-word run. -/
def claim8DemoRegistry : List Word :=
  match claim8DemoResult with
  | .ok r => r.2
  | .error _ => []

/-- A play state whose cell (0,0) is not selectable, used to exercise the
invalid-selection theorem. -/
def claim7DemoState : WSState :=
  { board := updateCell (getBlankBoard 6) ⟨0, 0⟩ (fun c => { c with selectable := false })
    words := []
    currentWord := []
    endGame := false
    error := ""
    selectedCount := 0
    lastSelectedVector := none }

/-- Concrete configuration exercising the selection accounting of claim
C10: a blank 3×3 board with DOWN as the only allowed direction. -/
def claim10DemoCfg : WSConfig := ⟨3, [WSDirections.DOWN], false⟩

/-- Fresh play state on a blank 3×3 board. -/
def claim10DemoInit : WSState := ⟨getBlankBoard 3, [], [], false, "", 0, none⟩

/-- One selection at the origin. -/
def claim10DemoOps : List PlayOp := [PlayOp.selectOp ⟨0, 0⟩]

/-- Concrete configuration exercising the selectable rule of claim C4: a
blank 4×4 board with RIGHT as the only allowed direction. -/
def claim4DemoCfg : WSConfig := ⟨4, [WSDirections.RIGHT], true⟩

/-- Fresh play state on a blank 4×4 board. -/
def claim4DemoInit : WSState := ⟨getBlankBoard 4, [], [], false, "", 0, none⟩

/-- Two selections establishing the direction RIGHT from the origin. -/
def claim4DemoOps : List PlayOp := [PlayOp.selectOp ⟨0, 0⟩, PlayOp.selectOp ⟨0, 1⟩]

/-! ## Board infrastructure lemmas -/

theorem listModify_length (f : α → α) (n : Nat) (l : List α) :
    (listModify f n l).length = l.length := by
  induction l generalizing n with
  | nil => cases n <;> rfl
  | cons a as ih =>
    cases n with
    | zero => rfl
    | succ m => simp [listModify, ih]

theorem listModify_get? (f : α → α) (n : Nat) (l : List α) (m : Nat) :
    (listModify f n l).get? m = if m = n then (l.get? m).map f else l.get? m := by
  induction l generalizing n m with
  | nil => cases n <;> simp [listModify]
  | cons a as ih =>
    cases n with
    | zero =>
      cases m with
      | zero => simp [listModify]
      | succ mm => simp [listModify]
    | succ nn =>
      cases m with
      | zero => simp [listModify]
      | succ mm => simpa [listModify] using ih nn mm

theorem mem_listModify {l : List α} {r : α} (f : α → α) (n : Nat)
    (h : r ∈ listModify f n l) : r ∈ l ∨ ∃ r0 ∈ l, r = f r0 := by
  induction l generalizing n with
  | nil => cases n <;> simp [listModify] at h
  | cons a as ih =>
    cases n with
    | zero =>
      rcases List.mem_cons.mp h with h1 | h1
      · exact Or.inr ⟨a, by simp, h1⟩
      · exact Or.inl (List.mem_cons.mpr (Or.inr h1))
    | succ nn =>
      rcases List.mem_cons.mp h with h1 | h1
      · exact Or.inl (by simp [h1])
      · rcases ih nn h1 with h2 | ⟨r0, hr0, hr⟩
        · exact Or.inl (List.mem_cons.mpr (Or.inr h2))
        · exact Or.inr ⟨r0, List.mem_cons.mpr (Or.inr hr0), hr⟩

theorem isVectorInBoard_iff {size : Nat} {v : Vector2D} :
    isVectorInBoard size v = true ↔
      0 ≤ v.x ∧ v.x < (size : Int) ∧ 0 ≤ v.y ∧ v.y < (size : Int) := by
  simp [isVectorInBoard, and_assoc]

theorem boardWf_updateCell {size : Nat} {b : Board} (wf : BoardWf size b)
    (p : Vector2D) (f : Cell → Cell) : BoardWf size (updateCell b p f) := by
  unfold updateCell
  split
  · refine ⟨by rw [listModify_length]; exact wf.1, ?_⟩
    intro row hrow
    rcases mem_listModify _ _ hrow with h | ⟨r0, hr0, hr⟩
    · exact wf.2 _ h
    · rw [hr, listModify_length]
      exact wf.2 _ hr0
  · exact wf

theorem boardWf_setCellFieldTo {size : Nat} {b : Board} (wf : BoardWf size b)
    (f : Cell → Cell) : BoardWf size (setCellFieldTo f b) := by
  refine ⟨by simp [setCellFieldTo, wf.1], ?_⟩
  intro row hrow
  simp only [setCellFieldTo, List.mem_map] at hrow
  obtain ⟨r0, hr0, hr⟩ := hrow
  rw [← hr]
  simpa using wf.2 _ hr0

theorem boardWf_getBlankBoard (size : Nat) : BoardWf size (getBlankBoard size) := by
  refine ⟨by simp [getBlankBoard], ?_⟩
  intro row hrow
  have := List.eq_of_mem_replicate hrow
  simp [this]

theorem cellAt_updateCell_ne {b : Board} {p q : Vector2D} (f : Cell → Cell)
    (hne : q ≠ p) : cellAt (updateCell b p f) q = cellAt b q := by
  unfold updateCell
  by_cases hp : 0 ≤ p.x ∧ 0 ≤ p.y
  · rw [if_pos hp]
    unfold cellAt
    by_cases hq : 0 ≤ q.x ∧ 0 ≤ q.y
    · rw [if_pos hq, if_pos hq]
      rw [listModify_get?]
      by_cases hx : q.x.toNat = p.x.toNat
      · have hxx : q.x = p.x := by omega
        rw [if_pos hx]
        cases hb : b.get? q.x.toNat with
        | none => simp
        | some row =>
          simp only [Option.map_some', Option.getD_some]
          rw [listModify_get?]
          have hy : q.y.toNat ≠ p.y.toNat := by
            intro hyy
            refine hne ?_
            have hyeq : q.y = p.y := by omega
            cases p
            cases q
            simp_all
          rw [if_neg hy]
      · rw [if_neg hx]
    · rw [if_neg hq, if_neg hq]
  · rw [if_neg hp]

theorem cellAt_updateCell_self {size : Nat} {b : Board} {p : Vector2D}
    (wf : BoardWf size b) (hin : isVectorInBoard size p = true) (f : Cell → Cell) :
    cellAt (updateCell b p f) p = f (cellAt b p) := by
  obtain ⟨hx0, hxs, hy0, hys⟩ := isVectorInBoard_iff.mp hin
  have hxlt : p.x.toNat < b.length := by rw [wf.1]; omega
  obtain ⟨row, hrow⟩ : ∃ row, b.get? p.x.toNat = some row := by
    cases hb : b.get? p.x.toNat with
    | none =>
      rw [List.get?_eq_none] at hb
      omega
    | some row => exact ⟨row, rfl⟩
  have hrowmem : row ∈ b := List.get?_mem hrow
  have hylt : p.y.toNat < row.length := by rw [wf.2 _ hrowmem]; omega
  obtain ⟨cellv, hcell⟩ : ∃ cellv, row.get? p.y.toNat = some cellv := by
    cases hc : row.get? p.y.toNat with
    | none =>
      rw [List.get?_eq_none] at hc
      omega
    | some cellv => exact ⟨cellv, rfl⟩
  have hpos : 0 ≤ p.x ∧ 0 ≤ p.y := ⟨hx0, hy0⟩
  unfold updateCell cellAt
  rw [if_pos hpos, if_pos hpos]
  rw [listModify_get?, if_pos rfl, hrow]
  simp only [Option.map_some', Option.getD_some]
  rw [listModify_get?, if_pos rfl, hcell]
  simp only [Option.map_some', Option.getD_some]
  rw [if_pos hpos]

theorem cellAt_setCellFieldTo {size : Nat} {b : Board} {p : Vector2D}
    (wf : BoardWf size b) (hin : isVectorInBoard size p = true) (f : Cell → Cell) :
    cellAt (setCellFieldTo f b) p = f (cellAt b p) := by
  obtain ⟨hx0, hxs, hy0, hys⟩ := isVectorInBoard_iff.mp hin
  have hxlt : p.x.toNat < b.length := by rw [wf.1]; omega
  obtain ⟨row, hrow⟩ : ∃ row, b.get? p.x.toNat = some row := by
    cases hb : b.get? p.x.toNat with
    | none =>
      rw [List.get?_eq_none] at hb
      omega
    | some row => exact ⟨row, rfl⟩
  have hrowmem : row ∈ b := List.get?_mem hrow
  have hylt : p.y.toNat < row.length := by rw [wf.2 _ hrowmem]; omega
  obtain ⟨cellv, hcell⟩ : ∃ cellv, row.get? p.y.toNat = some cellv := by
    cases hc : row.get? p.y.toNat with
    | none =>
      rw [List.get?_eq_none] at hc
      omega
    | some cellv => exact ⟨cellv, rfl⟩
  have hpos : 0 ≤ p.x ∧ 0 ≤ p.y := ⟨hx0, hy0⟩
  unfold setCellFieldTo cellAt
  rw [if_pos hpos, if_pos hpos]
  simp only [List.get?_map, hrow, Option.map_some', Option.getD_some, hcell]

theorem get?_replicate_of_lt {α : Type _} {a : α} {n i : Nat} (h : i < n) :
    (List.replicate n a).get? i = some a := by
  induction n generalizing i with
  | zero => omega
  | succ m ih =>
    cases i with
    | zero => rfl
    | succ j => simpa [List.replicate] using ih (by omega)

theorem cellAt_getBlankBoard {size : Nat} {p : Vector2D}
    (hin : isVectorInBoard size p = true) :
    cellAt (getBlankBoard size) p = blankCell := by
  obtain ⟨hx0, hxs, hy0, hys⟩ := isVectorInBoard_iff.mp hin
  have hx : p.x.toNat < size := by omega
  have hy : p.y.toNat < size := by omega
  unfold cellAt getBlankBoard
  rw [if_pos ⟨hx0, hy0⟩, get?_replicate_of_lt hx]
  simp only [Option.getD_some]
  rw [get?_replicate_of_lt hy]
  rfl

/-! ## Geometry lemmas -/

theorem stepN_zero (p : Vector2D) (d : WSDirections) : stepN p d 0 = p := by
  simp [stepN]

theorem stepN_add (p : Vector2D) (d : WSDirections) (a b : Nat) :
    stepN p d (a + b) = stepN (stepN p d a) d b := by
  simp only [stepN, Vector2D.mk.injEq]
  constructor <;> push_cast <;> ring

theorem stepN_one_eq (p : Vector2D) (d : WSDirections) :
    stepN p d 1 = ⟨p.x + (getDirectionVector d).x, p.y + (getDirectionVector d).y⟩ := by
  simp [stepN]

theorem moveInDirection_eq_some {size : Nat} {p q : Vector2D} {d : WSDirections} :
    moveInDirection size p d = some q ↔
      isVectorInBoard size q = true ∧ q = stepN p d 1 := by
  rw [stepN_one_eq]
  constructor
  · intro hmove
    unfold moveInDirection at hmove
    by_cases h : isVectorInBoard size
        ⟨p.x + (getDirectionVector d).x, p.y + (getDirectionVector d).y⟩ = true
    · rw [if_pos h] at hmove
      cases hmove
      exact ⟨h, rfl⟩
    · rw [if_neg (by simpa using h)] at hmove
      cases hmove
  · rintro ⟨hq, rfl⟩
    unfold moveInDirection
    rw [if_pos hq]

theorem moveInDirection_of_inBoard {size : Nat} {p : Vector2D} {d : WSDirections}
    (h : isVectorInBoard size (stepN p d 1) = true) :
    moveInDirection size p d = some (stepN p d 1) :=
  moveInDirection_eq_some.mpr ⟨h, rfl⟩

theorem moveInDirection_eq_none {size : Nat} {p : Vector2D} {d : WSDirections} :
    moveInDirection size p d = none ↔ isVectorInBoard size (stepN p d 1) = false := by
  rw [stepN_one_eq]
  unfold moveInDirection
  by_cases h : isVectorInBoard size
      ⟨p.x + (getDirectionVector d).x, p.y + (getDirectionVector d).y⟩ = true
  · rw [if_pos h, h]
    simp
  · have hf : isVectorInBoard size
        ⟨p.x + (getDirectionVector d).x, p.y + (getDirectionVector d).y⟩ = false := by
      rw [Bool.not_eq_true] at h
      exact h
    rw [if_neg (by simp [hf]), hf]
    simp

theorem stepN_inj {p : Vector2D} {d : WSDirections} (hd : realDir d) {k1 k2 : Nat}
    (h : stepN p d k1 = stepN p d k2) : k1 = k2 := by
  cases d <;>
    first
    | exact absurd rfl hd
    | (simp only [stepN, getDirectionVector, Vector2D.mk.injEq] at h; omega)

/-! ## Fit and collision extraction -/

theorem doesWordFitAux_inBoard {size : Nat} {d : WSDirections} :
    ∀ (n : Nat) (v : Vector2D), doesWordFitAux size d (some v) n = true →
      ∀ k, 1 ≤ k → k < n → isVectorInBoard size (stepN v d k) = true := by
  intro n
  induction n with
  | zero =>
    intro v _ k h1 h2
    omega
  | succ m ih =>
    intro v h k h1 h2
    have hstep : doesWordFitAux size d (moveInDirection size v d) m = true := h
    cases hmv : moveInDirection size v d with
    | none =>
      rw [hmv] at hstep
      cases m with
      | zero => omega
      | succ mm => simp [doesWordFitAux] at hstep
    | some v1 =>
      rw [hmv] at hstep
      obtain ⟨hin, heq⟩ := moveInDirection_eq_some.mp hmv
      cases k with
      | zero => omega
      | succ kk =>
        cases kk with
        | zero =>
          have h01 : stepN v d (0 + 1) = stepN v d 1 := by norm_num
          rw [h01, ← heq]
          exact hin
        | succ kkk =>
          have hrec := ih v1 hstep (kkk + 1) (by omega) (by omega)
          rw [heq, ← stepN_add] at hrec
          have harith : 1 + (kkk + 1) = kkk + 1 + 1 := by omega
          rw [harith] at hrec
          exact hrec

theorem doesWordFit_inBoard {size : Nat} {word : List Char} {start : Vector2D}
    {d : WSDirections} (h : doesWordFit size word start d = true) :
    ∀ k, k < word.length → isVectorInBoard size (stepN start d k) = true := by
  unfold doesWordFit at h
  by_cases hs : isVectorInBoard size start = true
  · rw [hs] at h
    simp only [Bool.not_true, Bool.false_eq_true, if_false] at h
    intro k hk
    cases k with
    | zero => simpa [stepN_zero] using hs
    | succ kk => exact doesWordFitAux_inBoard _ _ h (kk + 1) (by omega) hk
  · rw [Bool.not_eq_true] at hs
    rw [hs] at h
    simp at h

theorem doesWordCollideAux_false {size : Nat} {overlap : Bool} {b : Board}
    {d : WSDirections} :
    ∀ (cs : List Char) (p : Vector2D),
      doesWordCollideAux size overlap b d p cs = false →
      ∀ k c, cs.get? k = some c → isCharCollision overlap b c (stepN p d k) = false := by
  intro cs
  induction cs with
  | nil =>
    intro p _ k c hk
    simp at hk
  | cons c0 rest ih =>
    intro p h k c hk
    rw [doesWordCollideAux] at h
    by_cases hc : isCharCollision overlap b c0 p = true
    · simp [hc] at h
    · rw [Bool.not_eq_true] at hc
      rw [if_neg (by simp [hc])] at h
      cases hmv : moveInDirection size p d with
      | none =>
        rw [hmv] at h
        simp at h
      | some np =>
        rw [hmv] at h
        cases k with
        | zero =>
          have : c = c0 := by simpa using hk.symm
          rw [this, stepN_zero]
          exact hc
        | succ kk =>
          obtain ⟨hin, heq⟩ := moveInDirection_eq_some.mp hmv
          have hrec := ih np h kk c (by simpa using hk)
          rw [heq, ← stepN_add] at hrec
          have harith : 1 + kk = kk + 1 := by omega
          rw [harith] at hrec
          exact hrec

/-! ## Drawing lemmas -/

theorem map_stepN_shift (p : Vector2D) (d : WSDirections) :
    ∀ (n a : Nat), (List.range' a n).map (fun k => stepN (stepN p d 1) d k) =
      (List.range' (a + 1) n).map (stepN p d) := by
  intro n
  induction n with
  | zero => intro a; rfl
  | succ m ih =>
    intro a
    rw [List.range'_succ, List.range'_succ]
    simp only [List.map_cons]
    rw [ih (a + 1)]
    congr 1
    rw [← stepN_add]
    congr 1
    omega

theorem wordPathPos_length (start : Vector2D) (d : WSDirections) (n : Nat) :
    (wordPathPos start d n).length = n := by
  simp [wordPathPos]

theorem wordPathPos_cons (start : Vector2D) (d : WSDirections) (m : Nat) :
    wordPathPos start d (m + 1) = start :: (List.range' 1 m).map (stepN start d) := by
  unfold wordPathPos
  rw [List.range_eq_range', List.range'_succ]
  simp [stepN_zero]

theorem mem_wordPathPos {start : Vector2D} {d : WSDirections} {n : Nat} {q : Vector2D} :
    q ∈ wordPathPos start d n ↔ ∃ k, k < n ∧ q = stepN start d k := by
  unfold wordPathPos
  rw [List.mem_map]
  constructor
  · rintro ⟨a, ha, rfl⟩
    exact ⟨a, List.mem_range.mp ha, rfl⟩
  · rintro ⟨k, hk, rfl⟩
    exact ⟨k, List.mem_range.mpr hk, rfl⟩

theorem wordPathPos_get? {start : Vector2D} {d : WSDirections} {n k : Nat}
    (hk : k < n) : (wordPathPos start d n).get? k = some (stepN start d k) := by
  unfold wordPathPos
  rw [List.get?_map, List.get?_range hk]
  rfl

theorem wordPathPos_get?_eq {start : Vector2D} {d : WSDirections} {n k : Nat}
    {p : Vector2D} (h : (wordPathPos start d n).get? k = some p) :
    k < n ∧ p = stepN start d k := by
  have hlen : k < n := by
    by_contra hk
    rw [List.get?_eq_none.mpr (by rw [wordPathPos_length]; omega)] at h
    cases h
  rw [wordPathPos_get? hlen] at h
  exact ⟨hlen, (Option.some.inj h).symm⟩

theorem drawWordAux_wf {size : Nat} {d : WSDirections} :
    ∀ (cs : List Char) (p : Vector2D) (b : Board) (acc : List Vector2D),
      BoardWf size b → BoardWf size ((drawWordAux size d b acc p cs).1) := by
  intro cs
  induction cs with
  | nil =>
    intro p b acc wf
    exact wf
  | cons c rest ih =>
    intro p b acc wf
    rw [drawWordAux]
    cases hmv : moveInDirection size p d with
    | some np => exact ih np _ _ (boardWf_updateCell wf _ _)
    | none => exact wf

theorem drawWordAux_snd {size : Nat} {d : WSDirections} :
    ∀ (cs : List Char) (p : Vector2D) (b : Board) (acc : List Vector2D),
      (∀ k, 1 ≤ k → k ≤ cs.length → isVectorInBoard size (stepN p d k) = true) →
      (drawWordAux size d b acc p cs).2 =
        acc.reverse ++ (List.range' 1 cs.length).map (stepN p d) := by
  intro cs
  induction cs with
  | nil =>
    intro p b acc _
    simp [drawWordAux]
  | cons c rest ih =>
    intro p b acc h
    have h1 : isVectorInBoard size (stepN p d 1) = true := h 1 le_rfl (by simp)
    have hmv : moveInDirection size p d = some (stepN p d 1) :=
      moveInDirection_of_inBoard h1
    have hrec := ih (stepN p d 1)
      (updateCell b (stepN p d 1) (fun cell => { cell with letter := some c }))
      ((stepN p d 1) :: acc)
      (by
        intro k hk1 hk2
        have := h (1 + k) (by omega) (by simp; omega)
        rwa [stepN_add] at this)
    rw [drawWordAux, hmv, hrec]
    rw [List.length_cons, List.range'_succ]
    simp only [List.map_cons, List.reverse_cons]
    rw [map_stepN_shift]
    simp [List.append_assoc]

theorem drawWordAux_fst_off {size : Nat} {d : WSDirections} :
    ∀ (cs : List Char) (p : Vector2D) (b : Board) (acc : List Vector2D) (q : Vector2D),
      (∀ k, 1 ≤ k → k ≤ cs.length → q ≠ stepN p d k) →
      cellAt ((drawWordAux size d b acc p cs).1) q = cellAt b q := by
  intro cs
  induction cs with
  | nil =>
    intro p b acc q _
    rfl
  | cons c rest ih =>
    intro p b acc q h
    rw [drawWordAux]
    cases hmv : moveInDirection size p d with
    | none => rfl
    | some np =>
      obtain ⟨hin, heq⟩ := moveInDirection_eq_some.mp hmv
      subst heq
      have hrec := ih (stepN p d 1)
        (updateCell b (stepN p d 1) (fun cell => { cell with letter := some c }))
        ((stepN p d 1) :: acc) q
        (by
          intro k hk1 hk2
          have := h (1 + k) (by omega) (by simp; omega)
          rwa [stepN_add] at this)
      rw [hrec]
      exact cellAt_updateCell_ne _ (h 1 le_rfl (by simp))

theorem drawWordAux_fst_on {size : Nat} {d : WSDirections} (hd : realDir d) :
    ∀ (cs : List Char) (p : Vector2D) (b : Board) (acc : List Vector2D),
      BoardWf size b →
      (∀ k, 1 ≤ k → k ≤ cs.length → isVectorInBoard size (stepN p d k) = true) →
      ∀ k c, 1 ≤ k → k ≤ cs.length → cs.get? (k - 1) = some c →
        cellAt ((drawWordAux size d b acc p cs).1) (stepN p d k) =
          { cellAt b (stepN p d k) with letter := some c } := by
  intro cs
  induction cs with
  | nil =>
    intro p b acc _ _ k c hk1 hk2 _
    simp at hk2
    omega
  | cons c0 rest ih =>
    intro p b acc wf hmoves k c hk1 hk2 hget
    have hk2r : k ≤ rest.length + 1 := by simpa using hk2
    have h1 : isVectorInBoard size (stepN p d 1) = true := hmoves 1 le_rfl (by simp)
    have hmv := moveInDirection_of_inBoard h1
    rw [drawWordAux, hmv]
    by_cases hke : k = 1
    · subst hke
      have hc : c0 = c := by simpa using hget
      subst hc
      rw [drawWordAux_fst_off rest (stepN p d 1) _ _ (stepN p d 1)
        (by
          intro j hj1 hj2 heq2
          rw [← stepN_add] at heq2
          have := stepN_inj hd heq2
          omega)]
      exact cellAt_updateCell_self wf h1 _
    · have hk2' : 2 ≤ k := by omega
      have htgt : stepN p d k = stepN (stepN p d 1) d (k - 1) := by
        rw [← stepN_add]
        congr 1
        omega
      have hne : stepN p d k ≠ stepN p d 1 := by
        intro heq2
        have := stepN_inj hd heq2
        omega
      have hget2 : rest.get? (k - 1 - 1) = some c := by
        have harith : k - 1 = (k - 2) + 1 := by omega
        rw [harith] at hget
        have harith2 : k - 1 - 1 = k - 2 := by omega
        rw [harith2]
        simpa using hget
      have hrec := ih (stepN p d 1)
        (updateCell b (stepN p d 1) (fun cell => { cell with letter := some c0 }))
        ((stepN p d 1) :: acc)
        (boardWf_updateCell wf _ _)
        (by
          intro j hj1 hj2
          have := hmoves (1 + j) (by omega) (by simp; omega)
          rwa [stepN_add] at this)
        (k - 1) c (by omega) (by omega) hget2
      rw [htgt, hrec]
      rw [cellAt_updateCell_ne _ (by rw [← htgt]; exact hne)]

/-- Full effect of `drawWordInBoard` on a fitting instruction: the word is
appended to the registry with exactly the straight-run positions, the board
stays well-formed, the word's letters are written along the run and every
other cell is untouched. -/
theorem drawWordInBoard_spec {size : Nat} {b : Board} {ws : List Word}
    {word : List Char} {start : Vector2D} {d : WSDirections}
    (hd : realDir d) (hw : word ≠ []) (wf : BoardWf size b)
    (hfit : ∀ k, k < word.length → isVectorInBoard size (stepN start d k) = true) :
    (drawWordInBoard size b ws ⟨word, start, d⟩).2 =
        ws ++ [{ word := word, pos := wordPathPos start d word.length,
                 found := false, shown := false }] ∧
    BoardWf size (drawWordInBoard size b ws ⟨word, start, d⟩).1 ∧
    (∀ k c, word.get? k = some c →
      cellAt (drawWordInBoard size b ws ⟨word, start, d⟩).1 (stepN start d k) =
        { cellAt b (stepN start d k) with letter := some c }) ∧
    (∀ q, (∀ k, k < word.length → q ≠ stepN start d k) →
      cellAt (drawWordInBoard size b ws ⟨word, start, d⟩).1 q = cellAt b q) := by
  obtain ⟨c0, cs, rfl⟩ : ∃ c0 cs, word = c0 :: cs := by
    cases word with
    | nil => exact absurd rfl hw
    | cons c0 cs => exact ⟨c0, cs, rfl⟩
  have hstart : isVectorInBoard size start = true := by
    have := hfit 0 (by simp)
    rwa [stepN_zero] at this
  have hmoves : ∀ k, 1 ≤ k → k ≤ cs.length →
      isVectorInBoard size (stepN start d k) = true := by
    intro k hk1 hk2
    exact hfit k (by simp; omega)
  have hb1wf : BoardWf size
      (updateCell b start (fun cell => { cell with letter := some c0 })) :=
    boardWf_updateCell wf _ _
  have hb1ne : ∀ q : Vector2D, q ≠ start →
      cellAt (updateCell b start (fun cell => { cell with letter := some c0 })) q =
        cellAt b q := fun _ hq => cellAt_updateCell_ne _ hq
  unfold drawWordInBoard
  simp only [List.get?_cons_zero, List.tail_cons, List.length_cons]
  refine ⟨?_, ?_, ?_, ?_⟩
  · rw [drawWordAux_snd cs start _ _ hmoves, wordPathPos_cons]
    simp
  · exact drawWordAux_wf cs start _ _ hb1wf
  · intro k c hget
    have hklt : k < cs.length + 1 := by
      have := List.get?_eq_some.mp hget
      simpa using this.1
    cases k with
    | zero =>
      have hc : c0 = c := by simpa using hget
      subst hc
      rw [stepN_zero]
      rw [drawWordAux_fst_off cs start _ _ start
        (by
          intro j hj1 hj2 heqj
          have h0 : stepN start d 0 = stepN start d j := by
            rw [stepN_zero]
            exact heqj
          have := stepN_inj hd h0
          omega)]
      rw [cellAt_updateCell_self wf hstart]
    | succ kk =>
      have hget2 : cs.get? (kk + 1 - 1) = some c := by simpa using hget
      have hkk : kk + 1 ≤ cs.length := by omega
      rw [drawWordAux_fst_on hd cs start _ _ hb1wf hmoves (kk + 1) c
        (by omega) hkk hget2]
      rw [hb1ne (stepN start d (kk + 1))
        (by
          intro heqj
          have h0 : stepN start d (kk + 1) = stepN start d 0 := by
            rw [stepN_zero]
            exact heqj
          have := stepN_inj hd h0
          omega)]
  · intro q hq
    rw [drawWordAux_fst_off cs start _ _ q
      (by
        intro j hj1 hj2
        exact hq j (by omega))]
    exact hb1ne q (by
      have := hq 0 (by omega)
      rwa [stepN_zero] at this)

/-! ## Placement invariant -/

theorem get?_some_of_lt {α : Type _} {l : List α} {j : Nat} (h : j < l.length) :
    ∃ c, l.get? j = some c := by
  cases hg : l.get? j with
  | none =>
    rw [List.get?_eq_none] at hg
    omega
  | some c => exact ⟨c, rfl⟩

theorem isCharCollision_false_elim {overlap : Bool} {b : Board} {c : Char}
    {p : Vector2D} (h : isCharCollision overlap b c p = false) :
    (cellAt b p).letter = none ∨ (overlap = true ∧ (cellAt b p).letter = some c) := by
  unfold isCharCollision at h
  by_cases hov : (overlap && ((cellAt b p).letter == some c)) = true
  · simp only [Bool.and_eq_true] at hov
    obtain ⟨h1, h2⟩ := hov
    exact Or.inr ⟨h1, by simpa using h2⟩
  · rw [if_neg hov] at h
    left
    cases hl : (cellAt b p).letter with
    | none => rfl
    | some cc =>
      rw [hl] at h
      simp at h

theorem placeInv_step {size : Nat} {overlap : Bool} {b : Board} {ws : List Word}
    {word : List Char} {start : Vector2D} {d : WSDirections}
    (hInv : PlaceInv size overlap b ws) (hw : word ≠ []) (hd : realDir d)
    (hfit : doesWordFit size word start d = true)
    (hcol : doesWordCollide size overlap b word start d = false) :
    PlaceInv size overlap (drawWordInBoard size b ws ⟨word, start, d⟩).1
      (drawWordInBoard size b ws ⟨word, start, d⟩).2 := by
  obtain ⟨wf, hall, hpair⟩ := hInv
  have hbound := doesWordFit_inBoard hfit
  obtain ⟨hsnd, hwf, hon, hoff⟩ := drawWordInBoard_spec hd hw wf hbound
  have hnocoll : ∀ k c, word.get? k = some c →
      isCharCollision overlap b c (stepN start d k) = false :=
    fun k c hk => doesWordCollideAux_false word start hcol k c hk
  -- letters of an already-placed word survive the new draw
  have hpreserve : ∀ q c1, (cellAt b q).letter = some c1 →
      (cellAt (drawWordInBoard size b ws ⟨word, start, d⟩).1 q).letter = some c1 := by
    intro q c1 hq
    by_cases hqnew : ∃ j, j < word.length ∧ q = stepN start d j
    · obtain ⟨j, hj, hqe⟩ := hqnew
      obtain ⟨cj, hcj⟩ := get?_some_of_lt hj
      have hcolj := hnocoll j cj hcj
      rcases isCharCollision_false_elim hcolj with hnone | ⟨_, hsame⟩
      · rw [hqe] at hq
        rw [hq] at hnone
        cases hnone
      · rw [hqe] at hq
        rw [hq] at hsame
        have hceq : c1 = cj := by
          injection hsame
        rw [hqe, hon j cj hcj]
        simp [hceq]
    · push_neg at hqnew
      rw [hoff q (fun j hj => hqnew j hj)]
      exact hq
  refine ⟨hwf, ?_, ?_⟩
  · intro w hw2
    rw [hsnd] at hw2
    rcases List.mem_append.mp hw2 with hmem | hmem
    · obtain ⟨hne, st1, d1, hd1, hpos1, hbound1, hlet1⟩ := hall w hmem
      refine ⟨hne, st1, d1, hd1, hpos1, hbound1, ?_⟩
      intro k c hk
      exact hpreserve _ c (hlet1 k c hk)
    · have hweq : w = ⟨word, wordPathPos start d word.length, false, false⟩ := by
        simpa using hmem
      subst hweq
      refine ⟨hw, start, d, hd, rfl, hbound, ?_⟩
      intro k c hk
      rw [hon k c hk]
  · intro hovf
    rw [hsnd, List.pairwise_append]
    refine ⟨hpair hovf, by simp, ?_⟩
    intro w1 hw1 w2 hw2 p hp1 hp2
    have hw2eq : w2 = ⟨word, wordPathPos start d word.length, false, false⟩ := by
      simpa using hw2
    subst hw2eq
    obtain ⟨hne1, st1, d1, hd1, hpos1, hbound1, hlet1⟩ := hall w1 hw1
    rw [hpos1] at hp1
    obtain ⟨k1, hk1, hpe1⟩ := mem_wordPathPos.mp hp1
    have hk1w : k1 < w1.word.length := hk1
    obtain ⟨c1, hc1⟩ := get?_some_of_lt hk1w
    have hlett := hlet1 k1 c1 hc1
    simp only at hp2
    obtain ⟨j, hj, hpe2⟩ := mem_wordPathPos.mp hp2
    obtain ⟨cj, hcj⟩ := get?_some_of_lt hj
    have hcolj := hnocoll j cj hcj
    rcases isCharCollision_false_elim hcolj with hnone | ⟨hov, _⟩
    · rw [← hpe2, hpe1] at hnone
      rw [hlett] at hnone
      cases hnone
    · rw [hovf] at hov
      cases hov

theorem fitWordInRandomPosAux_some {size : Nat} {overlap : Bool} {b : Board}
    {word : List Char} {directions : List WSDirections} :
    ∀ (cells : List Vector2D) (wd : WordDrawInstruction),
      fitWordInRandomPosAux size overlap b word directions cells = some wd →
      wd.word = word ∧ wd.direction ∈ directions ∧
      doesWordFit size word wd.startPos wd.direction = true ∧
      doesWordCollide size overlap b word wd.startPos wd.direction = false := by
  intro cells
  induction cells with
  | nil =>
    intro wd h
    simp [fitWordInRandomPosAux] at h
  | cons cp rest ih =>
    intro wd h
    rw [fitWordInRandomPosAux] at h
    cases hfind : directions.find? (fun dd =>
        doesWordFit size word cp dd && !doesWordCollide size overlap b word cp dd) with
    | some dd =>
      rw [hfind] at h
      cases h
      have hmem := List.mem_of_find?_eq_some hfind
      have hpred := List.find?_some hfind
      simp only [Bool.and_eq_true, Bool.not_eq_true'] at hpred
      exact ⟨rfl, hmem, hpred.1, hpred.2⟩
    | none =>
      rw [hfind] at h
      exact ih wd h

theorem fitWordInRandomPos_ok {size : Nat} {overlap : Bool} {b : Board}
    {word : List Char} {cells : List Vector2D} {directions : List WSDirections}
    {wd : WordDrawInstruction}
    (h : fitWordInRandomPos size overlap b word cells directions = .ok wd) :
    wd.word = word ∧ wd.direction ∈ directions ∧
    doesWordFit size word wd.startPos wd.direction = true ∧
    doesWordCollide size overlap b word wd.startPos wd.direction = false := by
  unfold fitWordInRandomPos at h
  cases haux : fitWordInRandomPosAux size overlap b word directions cells with
  | none =>
    rw [haux] at h
    cases h
  | some wd2 =>
    rw [haux] at h
    cases h
    exact fitWordInRandomPosAux_some cells _ haux

theorem allocateWordsInBoard_inv {size : Nat} {overlap : Bool} :
    ∀ (words : List (List Char)) (oracle : List (List Vector2D × List WSDirections))
      (b : Board) (ws : List Word) (bOut : Board) (wsOut : List Word),
      PlaceInv size overlap b ws →
      (∀ w ∈ words, w ≠ []) →
      (∀ o ∈ oracle, ∀ dd ∈ o.2, realDir dd) →
      allocateWordsInBoard size overlap b ws words oracle = .ok (bOut, wsOut) →
      PlaceInv size overlap bOut wsOut := by
  intro words
  induction words with
  | nil =>
    intro oracle b ws bOut wsOut hInv _ _ h
    simp only [allocateWordsInBoard, Except.ok.injEq, Prod.mk.injEq] at h
    obtain ⟨rfl, rfl⟩ := h
    exact hInv
  | cons word rest ih =>
    intro oracle b ws bOut wsOut hInv hwords horacle h
    simp only [allocateWordsInBoard] at h
    cases hfit : fitWordInRandomPos size overlap b word
        (oracle.headD ([], [])).1 (oracle.headD ([], [])).2 with
    | error e =>
      rw [hfit] at h
      cases h
    | ok wd =>
      rw [hfit] at h
      obtain ⟨hword, hdir, hf, hc⟩ := fitWordInRandomPos_ok hfit
      have hreal : realDir wd.direction := by
        cases oracle with
        | nil => simp at hdir
        | cons o os => exact horacle o (by simp) _ (by simpa using hdir)
      obtain ⟨wrd, st, dr⟩ := wd
      simp only at hword hf hc hreal
      subst hword
      have hstep := placeInv_step hInv (hwords wrd (by simp)) hreal hf hc
      exact ih oracle.tail _ _ _ _ hstep
        (fun w2 hw2 => hwords w2 (by simp [hw2]))
        (fun o ho dd hdd => horacle o (List.mem_of_mem_tail ho) dd hdd)
        h

/-! ## Random fill preserves placed letters -/

theorem fillStep_preserves_letter {rnd : Vector2D → Char} {b : Board}
    {p q : Vector2D} {c : Char} (h : (cellAt b q).letter = some c) :
    (cellAt (fillInRandomCharsStep rnd b p) q).letter = some c := by
  unfold fillInRandomCharsStep
  by_cases hp : (cellAt b p).letter = none
  · rw [if_pos hp]
    by_cases hq : q = p
    · subst hq
      rw [h] at hp
      cases hp
    · rw [cellAt_updateCell_ne _ hq]
      exact h
  · rw [if_neg hp]
    exact h

theorem fillInRandomChars_preserves_letter {size : Nat} {rnd : Vector2D → Char}
    {b : Board} {q : Vector2D} {c : Char} (h : (cellAt b q).letter = some c) :
    (cellAt (fillInRandomChars size rnd b) q).letter = some c := by
  unfold fillInRandomChars
  generalize allPositions size = ps
  induction ps generalizing b with
  | nil => exact h
  | cons p rest ih => exact ih (fillStep_preserves_letter h)

/-! ## Claim C2 -/

/-- C2: after every successful generation — modelled as
`allocateWordsInBoard` succeeding on a blank board for the (already
case-normalised) sourced words, with the shuffled cell and direction orders
supplied explicitly — every registry entry has exactly one position per
letter of its word, its positions are contiguous along a single straight
(real) direction, and reading the board's letters at those positions in
path order reproduces the word's exact text; this still holds after
`fillInRandomChars` fills the remaining empty cells. -/
theorem claim2_placed_words_roundtrip (size : Nat) (overlap : Bool)
    (rnd : Vector2D → Char) (words : List (List Char))
    (oracle : List (List Vector2D × List WSDirections)) (bOut : Board)
    (wsOut : List Word)
    (hwords : ∀ w ∈ words, w ≠ ([] : List Char))
    (horacle : ∀ o ∈ oracle, ∀ d ∈ o.2, realDir d)
    (halloc : allocateWordsInBoard size overlap (getBlankBoard size) [] words oracle =
      .ok (bOut, wsOut)) :
    ∀ w ∈ wsOut,
      w.pos.length = w.word.length ∧
      (∃ start d, realDir d ∧ w.pos = wordPathPos start d w.word.length) ∧
      (∀ k p c, w.pos.get? k = some p → w.word.get? k = some c →
        (cellAt (fillInRandomChars size rnd bOut) p).letter = some c) := by
  have hbase : PlaceInv size overlap (getBlankBoard size) [] :=
    ⟨boardWf_getBlankBoard size, fun w hw => absurd hw (List.not_mem_nil w),
      fun _ => List.Pairwise.nil⟩
  have hInv := allocateWordsInBoard_inv words oracle _ _ _ _ hbase hwords horacle halloc
  intro w hwmem
  obtain ⟨hne, start, d, hd, hpos, hbound, hlet⟩ := hInv.2.1 w hwmem
  refine ⟨by rw [hpos, wordPathPos_length], ⟨start, d, hd, hpos⟩, ?_⟩
  intro k p c hkp hkc
  rw [hpos] at hkp
  obtain ⟨hklt, rfl⟩ := wordPathPos_get?_eq hkp
  exact fillInRandomChars_preserves_letter (hlet k c hkc)

/-- Witness: the one-word run evaluated concretely. -/
theorem claim2_witness :
    (∀ w ∈ claim2DemoWords, w ≠ ([] : List Char)) ∧
    (∀ o ∈ claim2DemoOracle, ∀ d ∈ o.2, realDir d) ∧
    ∀ w ∈ claim2DemoRegistry,
      w.pos.length = w.word.length ∧
      (∃ start d, realDir d ∧ w.pos = wordPathPos start d w.word.length) ∧
      (∀ k p c, w.pos.get? k = some p → w.word.get? k = some c →
        (cellAt (fillInRandomChars 6 (fun _ => 'z') claim2DemoBoard) p).letter = some c) :=
  ⟨by decide, by decide,
    claim2_placed_words_roundtrip 6 true (fun _ => 'z') claim2DemoWords claim2DemoOracle
      claim2DemoBoard claim2DemoRegistry (by decide) (by decide) rfl⟩

/-! ## Claim C8 -/

/-- C8: with word overlap disabled no two placed words share a board cell,
and (with any overlap setting) whenever two placed words cross at a cell,
the letters each word requires there are identical and the board holds that
letter. -/
theorem claim8_overlap_policy (size : Nat) (overlap : Bool)
    (words : List (List Char)) (oracle : List (List Vector2D × List WSDirections))
    (bOut : Board) (wsOut : List Word)
    (hwords : ∀ w ∈ words, w ≠ ([] : List Char))
    (horacle : ∀ o ∈ oracle, ∀ d ∈ o.2, realDir d)
    (halloc : allocateWordsInBoard size overlap (getBlankBoard size) [] words oracle =
      .ok (bOut, wsOut)) :
    (overlap = false → ∀ i j w1 w2, i < j → wsOut.get? i = some w1 →
      wsOut.get? j = some w2 → ∀ p, p ∈ w1.pos → p ∉ w2.pos) ∧
    (∀ w1 ∈ wsOut, ∀ w2 ∈ wsOut, ∀ k1 k2 p c1 c2,
      w1.pos.get? k1 = some p → w1.word.get? k1 = some c1 →
      w2.pos.get? k2 = some p → w2.word.get? k2 = some c2 →
      c1 = c2 ∧ (cellAt bOut p).letter = some c1) := by
  have hbase : PlaceInv size overlap (getBlankBoard size) [] :=
    ⟨boardWf_getBlankBoard size, fun w hw => absurd hw (List.not_mem_nil w),
      fun _ => List.Pairwise.nil⟩
  have hInv := allocateWordsInBoard_inv words oracle _ _ _ _ hbase hwords horacle halloc
  constructor
  · intro hovf i j w1 w2 hij h1 h2 p hp1
    have hpw := hInv.2.2 hovf
    rw [List.pairwise_iff_get] at hpw
    obtain ⟨hi, hgi⟩ := List.get?_eq_some.mp h1
    obtain ⟨hj, hgj⟩ := List.get?_eq_some.mp h2
    have hrel := hpw ⟨i, hi⟩ ⟨j, hj⟩ (Fin.mk_lt_mk.mpr hij)
    rw [hgi, hgj] at hrel
    exact hrel p hp1
  · intro w1 hw1 w2 hw2 k1 k2 p c1 c2 hp1 hc1 hp2 hc2
    obtain ⟨_, s1, d1, hd1, hpos1, _, hlet1⟩ := hInv.2.1 w1 hw1
    obtain ⟨_, s2, d2, hd2, hpos2, _, hlet2⟩ := hInv.2.1 w2 hw2
    rw [hpos1] at hp1
    obtain ⟨hk1, rfl⟩ := wordPathPos_get?_eq hp1
    rw [hpos2] at hp2
    obtain ⟨hk2, hpe⟩ := wordPathPos_get?_eq hp2
    have hL1 := hlet1 k1 c1 hc1
    have hL2 := hlet2 k2 c2 hc2
    rw [← hpe] at hL2
    have hc12 : c1 = c2 := by
      rw [hL1] at hL2
      injection hL2
    exact ⟨hc12, hL1⟩

/-- Witness: the two-word overlap-off run evaluated concretely. -/
theorem claim8_witness :
    (∀ w ∈ claim8DemoWords, w ≠ ([] : List Char)) ∧
    (∀ o ∈ claim8DemoOracle, ∀ d ∈ o.2, realDir d) ∧
    ((false = false → ∀ i j w1 w2, i < j → claim8DemoRegistry.get? i = some w1 →
      claim8DemoRegistry.get? j = some w2 → ∀ p, p ∈ w1.pos → p ∉ w2.pos) ∧
     (∀ w1 ∈ claim8DemoRegistry, ∀ w2 ∈ claim8DemoRegistry, ∀ k1 k2 p c1 c2,
      w1.pos.get? k1 = some p → w1.word.get? k1 = some c1 →
      w2.pos.get? k2 = some p → w2.word.get? k2 = some c2 →
      c1 = c2 ∧ (cellAt claim8DemoBoard p).letter = some c1)) :=
  ⟨by decide, by decide,
    claim8_overlap_policy 6 false claim8DemoWords claim8DemoOracle
      claim8DemoBoard claim8DemoRegistry (by decide) (by decide) rfl⟩

/-! ## Claim C7 -/

/-- C7: invalid play actions are safely rejected.  For any board position
(the spec's `Position` is in bounds by definition), selecting a cell whose
`selectable` flag is false, or — when a last selected cell exists — a
position with no resolvable straight-line direction from it, returns false
and leaves the whole state (board flags, selection count, accumulated word
and anchor) unchanged; the embedded `selectCell` is a total function, so
no exception can be raised on these inputs. -/
theorem claim7_invalid_select_safe (cfg : WSConfig) (s : WSState) (pos : Vector2D)
    (hin : isVectorInBoard cfg.size pos = true)
    (hinvalid : (cellAt s.board pos).selectable = false ∨
      (s.lastSelectedVector ≠ none ∧
        ∀ v, s.lastSelectedVector = some v →
          getDirectionFrom2Vectors cfg.size v pos = none)) :
    selectCell cfg s pos = (false, s) := by
  unfold selectCell
  by_cases hsel : (cellAt s.board pos).selectable = true
  · rw [if_pos hsel]
    rcases hinvalid with hfalse | ⟨hlast, hdir⟩
    · rw [hfalse] at hsel
      cases hsel
    · cases hls : s.lastSelectedVector with
      | none => exact absurd hls hlast
      | some v => simp only [hdir v hls]
  · rw [if_neg hsel]

/-- Witness: rejecting the non-selectable cell (0,0) leaves the concrete
state untouched. -/
theorem claim7_witness :
    isVectorInBoard 6 ⟨0, 0⟩ = true ∧
    selectCell ⟨6, [.RIGHT], true⟩ claim7DemoState ⟨0, 0⟩ = (false, claim7DemoState) :=
  ⟨by decide,
    claim7_invalid_select_safe ⟨6, [.RIGHT], true⟩ claim7DemoState ⟨0, 0⟩
      (by decide) (Or.inl (by decide))⟩

/-! ## Ray walk lemmas -/

theorem rayListAux_none {size : Nat} {d : WSDirections} (fuel : Nat) :
    rayListAux size d fuel none = [] := by
  cases fuel <;> rfl

theorem chain_shift {size : Nat} {p : Vector2D} {d : WSDirections}
    (hin1 : isVectorInBoard size (stepN p d 1) = true) {k : Nat}
    (hchain : ∀ i, 1 ≤ i → i ≤ k →
      isVectorInBoard size (stepN (stepN p d 1) d i) = true) :
    ∀ i, 1 ≤ i → i ≤ k + 1 → isVectorInBoard size (stepN p d i) = true := by
  intro i hi1 hik
  cases i with
  | zero => omega
  | succ j =>
    cases j with
    | zero => exact hin1
    | succ jj =>
      have h2 : stepN p d (jj + 1 + 1) = stepN (stepN p d 1) d (jj + 1) := by
        rw [← stepN_add]
        congr 1
        omega
      rw [h2]
      exact hchain (jj + 1) (by omega) (by omega)

theorem chain_unshift {size : Nat} {p : Vector2D} {d : WSDirections} {k : Nat}
    (hchain : ∀ i, 1 ≤ i → i ≤ k + 1 → isVectorInBoard size (stepN p d i) = true) :
    ∀ i, 1 ≤ i → i ≤ k → isVectorInBoard size (stepN (stepN p d 1) d i) = true := by
  intro i hi1 hik
  have h2 : stepN p d (i + 1) = stepN (stepN p d 1) d i := by
    rw [← stepN_add]
    congr 1
    omega
  rw [← h2]
  exact hchain (i + 1) (by omega) (by omega)

theorem mem_rayListAux {size : Nat} {d : WSDirections} :
    ∀ (fuel : Nat) (v q : Vector2D),
      q ∈ rayListAux size d fuel (some v) ↔
        ∃ k : Nat, k < fuel ∧ q = stepN v d k ∧
          ∀ i : Nat, 1 ≤ i → i ≤ k → isVectorInBoard size (stepN v d i) = true := by
  intro fuel
  induction fuel with
  | zero =>
    intro v q
    simp [rayListAux]
  | succ f ih =>
    intro v q
    rw [rayListAux, List.mem_cons]
    cases hmv : moveInDirection size v d with
    | none =>
      rw [rayListAux_none]
      have hnb := moveInDirection_eq_none.mp hmv
      constructor
      · rintro (rfl | h)
        · exact ⟨0, by omega, (stepN_zero q d).symm, by omega⟩
        · simp at h
      · rintro ⟨k, hkf, hq, hchain⟩
        cases k with
        | zero =>
          left
          rw [hq, stepN_zero]
        | succ kk =>
          have hc := hchain 1 (by omega) (by omega)
          rw [hc] at hnb
          cases hnb
    | some v1 =>
      obtain ⟨hin1, hv1⟩ := moveInDirection_eq_some.mp hmv
      subst hv1
      rw [ih (stepN v d 1) q]
      constructor
      · rintro (rfl | ⟨k, hkf, hq, hchain⟩)
        · exact ⟨0, by omega, (stepN_zero q d).symm, by omega⟩
        · refine ⟨k + 1, by omega, ?_, chain_shift hin1 hchain⟩
          have h2 : stepN v d (k + 1) = stepN (stepN v d 1) d k := by
            rw [← stepN_add]
            congr 1
            omega
          rw [hq, h2]
      · rintro ⟨k, hkf, hq, hchain⟩
        cases k with
        | zero =>
          left
          rw [hq, stepN_zero]
        | succ kk =>
          right
          refine ⟨kk, by omega, ?_, chain_unshift hchain⟩
          have h2 : stepN v d (kk + 1) = stepN (stepN v d 1) d kk := by
            rw [← stepN_add]
            congr 1
            omega
          rw [hq, h2]

theorem mem_rayList_inBoard_aux {size : Nat} {d : WSDirections} :
    ∀ (fuel : Nat) (v q : Vector2D), isVectorInBoard size v = true →
      q ∈ rayListAux size d fuel (some v) → isVectorInBoard size q = true := by
  intro fuel
  induction fuel with
  | zero =>
    intro v q _ h
    simp [rayListAux] at h
  | succ f ih =>
    intro v q hv h
    rw [rayListAux, List.mem_cons] at h
    rcases h with rfl | h
    · exact hv
    · cases hmv : moveInDirection size v d with
      | none =>
        rw [hmv, rayListAux_none] at h
        simp at h
      | some v1 =>
        rw [hmv] at h
        exact ih v1 q (moveInDirection_eq_some.mp hmv).1 h

theorem mem_rayList_inBoard {size : Nat} {p q : Vector2D} {d : WSDirections}
    (h : q ∈ rayList size p d) : isVectorInBoard size q = true := by
  unfold rayList at h
  cases hmv : moveInDirection size p d with
  | none =>
    rw [hmv, rayListAux_none] at h
    simp at h
  | some v1 =>
    rw [hmv] at h
    exact mem_rayList_inBoard_aux size v1 q (moveInDirection_eq_some.mp hmv).1 h

theorem stepN_le_size_of_inBoard {size : Nat} {p : Vector2D} {d : WSDirections}
    (hd : realDir d) {k : Nat}
    (h1 : isVectorInBoard size (stepN p d 1) = true)
    (hk : isVectorInBoard size (stepN p d k) = true) (hk1 : 1 ≤ k) : k ≤ size := by
  obtain ⟨a1, a2, a3, a4⟩ := isVectorInBoard_iff.mp h1
  obtain ⟨b1, b2, b3, b4⟩ := isVectorInBoard_iff.mp hk
  cases d <;>
    first
    | exact absurd rfl hd
    | (simp only [stepN, getDirectionVector] at a1 a2 a3 a4 b1 b2 b3 b4; omega)

theorem mem_rayList_iff {size : Nat} {p q : Vector2D} {d : WSDirections}
    (hd : realDir d) : q ∈ rayList size p d ↔ ReachableBy size p d q := by
  unfold rayList ReachableBy
  cases hmv : moveInDirection size p d with
  | none =>
    rw [rayListAux_none]
    have hnb := moveInDirection_eq_none.mp hmv
    constructor
    · intro h
      simp at h
    · rintro ⟨k, hk1, hq, hchain⟩
      have hc := hchain 1 le_rfl hk1
      rw [hc] at hnb
      cases hnb
  | some v1 =>
    obtain ⟨hin1, hv1⟩ := moveInDirection_eq_some.mp hmv
    subst hv1
    rw [mem_rayListAux]
    constructor
    · rintro ⟨k, hkf, hq, hchain⟩
      refine ⟨k + 1, by omega, ?_, chain_shift hin1 hchain⟩
      have h2 : stepN p d (k + 1) = stepN (stepN p d 1) d k := by
        rw [← stepN_add]
        congr 1
        omega
      rw [hq, h2]
    · rintro ⟨k, hk1, hq, hchain⟩
      have hkend : isVectorInBoard size (stepN p d k) = true := by
        rw [← hq]
        rw [hq]
        exact hchain k hk1 le_rfl
      have hkb : k ≤ size := stepN_le_size_of_inBoard hd (hchain 1 le_rfl hk1) hkend hk1
      cases k with
      | zero => omega
      | succ kk =>
        refine ⟨kk, by omega, ?_, chain_unshift hchain⟩
        have h2 : stepN p d (kk + 1) = stepN (stepN p d 1) d kk := by
          rw [← stepN_add]
          congr 1
          omega
        rw [hq, h2]

theorem reachableBy_unique {size : Nat} {p q : Vector2D} {d e : WSDirections}
    (hd : realDir d) (he : realDir e)
    (h1 : ReachableBy size p d q) (h2 : ReachableBy size p e q) : d = e := by
  obtain ⟨k, hk1, hq1, _⟩ := h1
  obtain ⟨k2, hk2, hq2, _⟩ := h2
  rw [hq1] at hq2
  cases d <;>
    first
    | exact absurd rfl hd
    | (cases e <;>
        first
        | rfl
        | exact absurd rfl he
        | (simp only [stepN, getDirectionVector, Vector2D.mk.injEq] at hq2; omega))

theorem reachableBy_not_self {size : Nat} {p : Vector2D} {d : WSDirections}
    (hd : realDir d) : ¬ReachableBy size p d p := by
  rintro ⟨k, hk1, hq, _⟩
  have h0 : stepN p d 0 = stepN p d k := by
    rw [stepN_zero]
    exact hq
  have := stepN_inj hd h0
  omega

/-! ## Board update preservation machinery -/

theorem cellAt_updateCell_cases (b : Board) (p q : Vector2D) (f : Cell → Cell) :
    cellAt (updateCell b p f) q = cellAt b q ∨
    cellAt (updateCell b p f) q = f (cellAt b q) := by
  by_cases hq : q = p
  · subst hq
    unfold updateCell cellAt
    by_cases hpos : 0 ≤ q.x ∧ 0 ≤ q.y
    · rw [if_pos hpos, if_pos hpos, if_pos hpos]
      rw [listModify_get?, if_pos rfl]
      cases hb : b.get? q.x.toNat with
      | none =>
        left
        simp
      | some row =>
        simp only [Option.map_some', Option.getD_some]
        rw [listModify_get?, if_pos rfl]
        cases hc : row.get? q.y.toNat with
        | none =>
          left
          simp
        | some cellv =>
          right
          simp
    · rw [if_neg hpos]
      left
      rw [if_neg hpos]
  · exact Or.inl (cellAt_updateCell_ne f hq)

theorem cellAt_updateCell_preserve {β : Type _} (g : Cell → β) (f : Cell → Cell)
    (hf : ∀ c, g (f c) = g c) (b : Board) (p q : Vector2D) :
    g (cellAt (updateCell b p f) q) = g (cellAt b q) := by
  rcases cellAt_updateCell_cases b p q f with h | h
  · rw [h]
  · rw [h, hf]

theorem cellAt_foldl_preserve {β : Type _} (g : Cell → β) (f : Cell → Cell)
    (hf : ∀ c, g (f c) = g c) :
    ∀ (ps : List Vector2D) (b : Board) (q : Vector2D),
      g (cellAt (ps.foldl (fun bb r => updateCell bb r f) b) q) = g (cellAt b q) := by
  intro ps
  induction ps with
  | nil =>
    intro b q
    rfl
  | cons p rest ih =>
    intro b q
    rw [List.foldl_cons, ih, cellAt_updateCell_preserve g f hf]

theorem boardWf_foldl_update {size : Nat} {f : Cell → Cell} :
    ∀ (ps : List Vector2D) (b : Board), BoardWf size b →
      BoardWf size (ps.foldl (fun bb r => updateCell bb r f) b) := by
  intro ps
  induction ps with
  | nil =>
    intro b wf
    exact wf
  | cons p rest ih =>
    intro b wf
    exact ih _ (boardWf_updateCell wf _ _)

theorem markfold_flag {size : Nat} (g : Cell → Bool) (f : Cell → Cell)
    (hset : ∀ c, g (f c) = true) (hkeep : ∀ c, g (f c) = true ∨ g (f c) = g c) :
    ∀ (ps : List Vector2D) (b : Board) (q : Vector2D), BoardWf size b →
      (∀ r ∈ ps, isVectorInBoard size r = true) →
      (g (cellAt (ps.foldl (fun bb r => updateCell bb r f) b) q) = true ↔
        (g (cellAt b q) = true ∨ q ∈ ps)) := by
  intro ps
  induction ps with
  | nil =>
    intro b q _ _
    simp
  | cons p rest ih =>
    intro b q wf hin
    rw [List.foldl_cons,
      ih (updateCell b p f) q (boardWf_updateCell wf _ _) (fun r hr => hin r (by simp [hr]))]
    by_cases hq : q = p
    · subst hq
      rw [cellAt_updateCell_self wf (hin q (by simp)) f]
      simp [hset]
    · rw [cellAt_updateCell_ne f hq]
      constructor
      · rintro (h | h)
        · exact Or.inl h
        · exact Or.inr (by simp [h])
      · rintro (h | h)
        · exact Or.inl h
        · rcases List.mem_cons.mp h with h2 | h2
          · exact absurd h2 hq
          · exact Or.inr h2

theorem find?_congr_mem {α : Type _} {p q : α → Bool} :
    ∀ l : List α, (∀ a ∈ l, p a = q a) → l.find? p = l.find? q := by
  intro l
  induction l with
  | nil =>
    intro _
    rfl
  | cons a rest ih =>
    intro h
    rw [List.find?_cons, List.find?_cons, h a (by simp)]
    cases q a with
    | true => rfl
    | false => exact ih (fun r hr => h r (by simp [hr]))

theorem find?_eq_some_unique {α : Type _} {p : α → Bool} {x : α} :
    ∀ l : List α, x ∈ l → p x = true → (∀ y ∈ l, p y = true → y = x) →
      l.find? p = some x := by
  intro l
  induction l with
  | nil =>
    intro h
    simp at h
  | cons a rest ih =>
    intro hmem hpx huniq
    rw [List.find?_cons]
    cases hpa : p a with
    | true =>
      rw [huniq a (by simp) hpa]
    | false =>
      rcases List.mem_cons.mp hmem with rfl | hmem2
      · rw [hpx] at hpa
        cases hpa
      · exact ih hmem2 hpx (fun y hy hpy => huniq y (by simp [hy]) hpy)

theorem lettersAlong_congr {b1 b2 : Board} :
    ∀ ps : List Vector2D, (∀ p ∈ ps, (cellAt b1 p).letter = (cellAt b2 p).letter) →
      lettersAlong b1 ps = lettersAlong b2 ps := by
  intro ps
  induction ps with
  | nil =>
    intro _
    rfl
  | cons p rest ih =>
    intro h
    unfold lettersAlong at ih ⊢
    rw [List.flatMap_cons, List.flatMap_cons, h p (by simp),
      ih (fun r hr => h r (by simp [hr]))]

theorem lettersAlong_append (b : Board) (ps1 ps2 : List Vector2D) :
    lettersAlong b (ps1 ++ ps2) = lettersAlong b ps1 ++ lettersAlong b ps2 := by
  unfold lettersAlong
  rw [List.flatMap_append]

/-! ## Walk specifications -/

theorem walkPositions_spec {size : Nat} {d : WSDirections} (hd : realDir d) :
    ∀ (k fuel : Nat) (last target : Vector2D), 1 ≤ k → k ≤ fuel →
      target = stepN last d k →
      (∀ i, 1 ≤ i → i ≤ k → isVectorInBoard size (stepN last d i) = true) →
      walkPositions size d target fuel (moveInDirection size last d) =
        (List.range' 1 k).map (stepN last d) := by
  intro k
  induction k with
  | zero =>
    intro fuel last target h1
    omega
  | succ kk ihk =>
    intro fuel last target _ hkf htar hchain
    have h1 : isVectorInBoard size (stepN last d 1) = true :=
      hchain 1 le_rfl (by omega)
    have hmv : moveInDirection size last d = some (stepN last d 1) :=
      moveInDirection_of_inBoard h1
    cases fuel with
    | zero => omega
    | succ f =>
      rw [hmv, walkPositions]
      by_cases hkk0 : kk = 0
      · subst hkk0
        have hv : stepN last d 1 = target := by simp [htar]
        rw [if_pos hv]
        simp
      · have hne : ¬stepN last d 1 = target := by
          intro heq
          rw [htar] at heq
          have := stepN_inj hd heq
          omega
        rw [if_neg hne]
        have htar2 : target = stepN (stepN last d 1) d kk := by
          rw [htar, ← stepN_add]
          congr 1
          omega
        rw [ihk f (stepN last d 1) target (by omega) (by omega) htar2
          (chain_unshift (by
            intro i hi1 hik
            exact hchain i hi1 (by omega)))]
        rw [map_stepN_shift]
        have hrange : List.range' 1 (kk + 1) = 1 :: List.range' 2 kk := by
          rw [List.range'_succ]
        rw [hrange]
        simp

theorem selWalk_spec {size : Nat} {d : WSDirections} {target : Vector2D} :
    ∀ (fuel : Nat) (ov : Option Vector2D) (b : Board) (w : List Char) (cnt : Nat),
      selWalk size d target fuel ov b w cnt =
        ((walkPositions size d target fuel ov).foldl
            (fun bb r => updateCell bb r (fun c => { c with selected := true })) b,
          w ++ lettersAlong b (walkPositions size d target fuel ov),
          cnt + (walkPositions size d target fuel ov).length) := by
  intro fuel
  induction fuel with
  | zero =>
    intro ov b w cnt
    cases ov <;> simp [selWalk, walkPositions, lettersAlong]
  | succ f ih =>
    intro ov b w cnt
    cases ov with
    | none => simp [selWalk, walkPositions, lettersAlong]
    | some v =>
      rw [selWalk, walkPositions]
      by_cases hv : v = target
      · rw [if_pos hv, if_pos hv]
        simp [lettersAlong]
      · rw [if_neg hv, if_neg hv]
        rw [ih]
        have hletters : lettersAlong
            (updateCell b v (fun c => { c with selected := true }))
            (walkPositions size d target f (moveInDirection size v d)) =
            lettersAlong b (walkPositions size d target f (moveInDirection size v d)) := by
          apply lettersAlong_congr
          intro r _
          exact cellAt_updateCell_preserve Cell.letter
            (fun c => { c with selected := true }) (fun c => rfl) b v r
        rw [hletters]
        simp only [List.foldl_cons, List.length_cons, Prod.mk.injEq, true_and]
        constructor
        · rw [List.append_assoc]
          unfold lettersAlong
          rw [List.flatMap_cons]
        · omega

/-! ## Direction lemmas -/

theorem allDirections_real : ∀ e ∈ allDirections, realDir e := by decide

theorem adjacentScanDirections_real : ∀ e ∈ adjacentScanDirections, realDir e := by decide

theorem mem_allDirections_of_real {e : WSDirections} (he : realDir e) :
    e ∈ allDirections := by
  cases e <;> first | exact absurd rfl he | decide

theorem mem_adjacentScanDirections_of_real {e : WSDirections} (he : realDir e) :
    e ∈ adjacentScanDirections := by
  cases e <;> first | exact absurd rfl he | decide

theorem eq_of_vec_eq {d e : WSDirections} (hd : realDir d) (he : realDir e)
    (h : getDirectionVector d = getDirectionVector e) : d = e := by
  cases d <;> cases e <;>
    first
    | rfl
    | exact absurd rfl hd
    | exact absurd rfl he
    | exact absurd h (by decide)

theorem getInverseDirection_real {d : WSDirections} (hd : realDir d) :
    ∃ e, getInverseDirection d = some e ∧ realDir e ∧
      getDirectionVector e = ⟨-(getDirectionVector d).x, -(getDirectionVector d).y⟩ ∧
      getInverseDirection e = some d := by
  cases d <;>
    first
    | exact absurd rfl hd
    | exact ⟨_, rfl, by decide, by decide, rfl⟩

theorem adjacent_segment_unique {size : Nat} {a : Vector2D} {d : WSDirections}
    (hd : realDir d) {m : Nat} {e : WSDirections} (he : realDir e) {nv : Vector2D}
    (hmv : moveInDirection size (stepN a d (m + 1)) e = some nv)
    {i : Nat} (hi : i < m + 2) (hnv : nv = stepN a d i) :
    i = m ∧ getDirectionVector e =
      ⟨-(getDirectionVector d).x, -(getDirectionVector d).y⟩ := by
  obtain ⟨hin, heq⟩ := moveInDirection_eq_some.mp hmv
  rw [hnv] at heq
  cases d <;>
    first
    | exact absurd rfl hd
    | (cases e <;>
        first
        | exact absurd rfl he
        | (simp only [stepN, getDirectionVector, Vector2D.mk.injEq] at heq
           first
           | exact ⟨by omega, by decide⟩
           | (exfalso; omega)))

/-! ## Direction detection lemmas -/

theorem getDirectionFrom2Vectors_some {size : Nat} {v1 v2 : Vector2D}
    {d : WSDirections} (h : getDirectionFrom2Vectors size v1 v2 = some d) :
    realDir d ∧ ReachableBy size v1 d v2 := by
  unfold getDirectionFrom2Vectors at h
  have hmem := List.mem_of_find?_eq_some h
  have hpred := List.find?_some h
  have hreal : realDir d := allDirections_real d hmem
  refine ⟨hreal, ?_⟩
  rw [← mem_rayList_iff hreal]
  simpa using hpred

theorem getDirectionFrom2Vectors_of_reachable {size : Nat} {v1 v2 : Vector2D}
    {d : WSDirections} (hd : realDir d) (hr : ReachableBy size v1 d v2) :
    getDirectionFrom2Vectors size v1 v2 = some d := by
  unfold getDirectionFrom2Vectors
  apply find?_eq_some_unique
  · exact mem_allDirections_of_real hd
  · exact decide_eq_true ((mem_rayList_iff hd).mpr hr)
  · intro y hy hpy
    have hyreal := allDirections_real y hy
    have hry : ReachableBy size v1 y v2 :=
      (mem_rayList_iff hyreal).mp (of_decide_eq_true hpy)
    exact reachableBy_unique hyreal hd hry hr

theorem adjacentScan_of_segment {size : Nat} {b : Board} {a : Vector2D}
    {d : WSDirections} (hd : realDir d) {m : Nat}
    (hbound : ∀ k, k < m + 2 → isVectorInBoard size (stepN a d k) = true)
    (hsel : ∀ p, isVectorInBoard size p = true →
      ((cellAt b p).selected = true ↔ p ∈ wordPathPos a d (m + 2))) :
    ∃ e, getAdjacentSelectedVectorDirection size b (stepN a d (m + 1)) = some e ∧
      getInverseDirection e = some d := by
  obtain ⟨einv, hinvd, hereal, hvec, hinv2⟩ := getInverseDirection_real hd
  refine ⟨einv, ?_, hinv2⟩
  unfold getAdjacentSelectedVectorDirection
  have hstep : stepN (stepN a d (m + 1)) einv 1 = stepN a d m := by
    simp only [stepN, hvec, Vector2D.mk.injEq]
    constructor <;> push_cast <;> ring
  have hmin : isVectorInBoard size (stepN a d m) = true := hbound m (by omega)
  have hmv : moveInDirection size (stepN a d (m + 1)) einv = some (stepN a d m) :=
    moveInDirection_eq_some.mpr ⟨hmin, hstep.symm⟩
  apply find?_eq_some_unique
  · exact mem_adjacentScanDirections_of_real hereal
  · show (match moveInDirection size (stepN a d (m + 1)) einv with
      | some nv => (cellAt b nv).selected
      | none => false) = true
    rw [hmv]
    exact (hsel _ hmin).mpr (mem_wordPathPos.mpr ⟨m, by omega, rfl⟩)
  · intro y hy hpy
    have hyreal := adjacentScanDirections_real y hy
    cases hmv2 : moveInDirection size (stepN a d (m + 1)) y with
    | none =>
      simp only [hmv2] at hpy
      cases hpy
    | some nv =>
      simp only [hmv2] at hpy
      have hnvin : isVectorInBoard size nv = true := (moveInDirection_eq_some.mp hmv2).1
      have hmem := (hsel nv hnvin).mp hpy
      obtain ⟨i, hi, hnv⟩ := mem_wordPathPos.mp hmem
      obtain ⟨_, hveq⟩ := adjacent_segment_unique hd hyreal hmv2 hi hnv
      exact eq_of_vec_eq hyreal hereal (by rw [hveq, hvec])

/-! ## calculateSelectables characterisation -/

theorem cellAt_setCellFieldTo_preserve {β : Type _} (g : Cell → β) (f : Cell → Cell)
    (hf : ∀ c, g (f c) = g c) (b : Board) (p : Vector2D) :
    g (cellAt (setCellFieldTo f b) p) = g (cellAt b p) := by
  unfold setCellFieldTo cellAt
  by_cases hp : 0 ≤ p.x ∧ 0 ≤ p.y
  · rw [if_pos hp, if_pos hp, List.get?_map]
    cases hb : b.get? p.x.toNat with
    | none => simp [hb]
    | some row =>
      simp only [hb, Option.map_some', Option.getD_some, List.get?_map]
      cases hc : row.get? p.y.toNat with
      | none => simp [hc]
      | some c => simp [hc, hf]
  · rw [if_neg hp, if_neg hp]

theorem cellAt_not_inBoard {size : Nat} {b : Board} (wf : BoardWf size b) {p : Vector2D}
    (hp : ¬isVectorInBoard size p = true) : cellAt b p = inertCell := by
  unfold cellAt
  by_cases hpos : 0 ≤ p.x ∧ 0 ≤ p.y
  · rw [if_pos hpos]
    have hnot : ¬(0 ≤ p.x ∧ p.x < (size : Int) ∧ 0 ≤ p.y ∧ p.y < (size : Int)) :=
      fun hcon => hp (isVectorInBoard_iff.mpr hcon)
    by_cases hx : p.x < (size : Int)
    · have hy : (size : Int) ≤ p.y := by
        rcases hpos with ⟨h1, h2⟩
        by_contra hy2
        exact hnot ⟨h1, hx, h2, by omega⟩

      cases hb : b.get? p.x.toNat with
      | none => simp [hb]
      | some row =>
        have hrl : row.length = size := wf.2 _ (List.get?_mem hb)
        simp only [Option.getD_some]
        rw [List.get?_eq_none.mpr (by rw [hrl]; omega)]
        rfl
    · have hnone : b.get? p.x.toNat = none := List.get?_eq_none.mpr (by rw [wf.1]; omega)
      rw [hnone]
      rfl
  · rw [if_neg hpos]

theorem boardWf_markRay {size : Nat} {b : Board} (wf : BoardWf size b)
    (o : Vector2D) (d : WSDirections) : BoardWf size (markRaySelectable size b o d) := by
  unfold markRaySelectable
  exact boardWf_foldl_update _ _ wf

theorem cellAt_markRay_preserve {β : Type _} (g : Cell → β)
    (hf : ∀ c, g { c with selectable := true } = g c)
    {size : Nat} (b : Board) (o : Vector2D) (d : WSDirections) (q : Vector2D) :
    g (cellAt (markRaySelectable size b o d) q) = g (cellAt b q) := by
  unfold markRaySelectable
  exact cellAt_foldl_preserve g _ hf _ b q

theorem calcSel_preserve {β : Type _} (g : Cell → β)
    (hf : ∀ c v, g { c with selectable := v } = g c)
    (cfg : WSConfig) (count : Nat) (ls : Option Vector2D) (b : Board) (p : Vector2D) :
    g (cellAt (calculateSelectables cfg count ls b) p) = g (cellAt b p) := by
  have hdirfold : ∀ (ds : List WSDirections) (b2 : Board) (o : Vector2D),
      g (cellAt (ds.foldl (fun bb d2 => markRaySelectable cfg.size bb o d2) b2) p) =
        g (cellAt b2 p) := by
    intro ds
    induction ds with
    | nil =>
      intro b2 o
      rfl
    | cons d2 rest ih =>
      intro b2 o
      rw [List.foldl_cons, ih, cellAt_markRay_preserve g (fun c => hf c true)]
  have hsetT : ∀ b2 : Board,
      g (cellAt (setCellFieldTo (fun c => { c with selectable := true }) b2) p) =
        g (cellAt b2 p) :=
    fun b2 => cellAt_setCellFieldTo_preserve g _ (fun c => hf c true) b2 p
  have hsetF : ∀ b2 : Board,
      g (cellAt (setCellFieldTo (fun c => { c with selectable := false }) b2) p) =
        g (cellAt b2 p) :=
    fun b2 => cellAt_setCellFieldTo_preserve g _ (fun c => hf c false) b2 p
  by_cases h1 : 1 < count
  · have h0 : ¬count = 0 := by omega
    have he1 : ¬count = 1 := by omega
    simp only [calculateSelectables, if_neg h0, if_neg he1, if_pos h1]
    cases ls with
    | none => exact hsetF b
    | some a =>
      cases hscan : getAdjacentSelectedVectorDirection cfg.size
          (setCellFieldTo (fun c => { c with selectable := false }) b) a with
      | none =>
        simp only [hscan]
        exact hsetF b
      | some sd =>
        cases hinv : getInverseDirection sd with
        | none =>
          simp only [hscan, hinv]
          exact hsetF b
        | some dv =>
          simp only [hscan, hinv]
          rw [cellAt_markRay_preserve g (fun c => hf c true)]
          exact hsetF b
  · by_cases h0 : count = 0
    · subst h0
      have heq : calculateSelectables cfg 0 ls b =
          setCellFieldTo (fun c => { c with selectable := true }) b := rfl
      rw [heq]
      exact hsetT b
    · have he1 : count = 1 := by omega
      subst he1
      cases ls with
      | none => rfl
      | some a =>
        have heq : calculateSelectables cfg 1 (some a) b =
            cfg.allowedDirections.foldl (fun bb d2 => markRaySelectable cfg.size bb a d2)
              (setCellFieldTo (fun c => { c with selectable := false }) b) := rfl
        rw [heq, hdirfold]
        exact hsetF b

theorem boardWf_calcSel {cfg : WSConfig} {b : Board} (wf : BoardWf cfg.size b)
    (count : Nat) (ls : Option Vector2D) :
    BoardWf cfg.size (calculateSelectables cfg count ls b) := by
  have hdirfold : ∀ (ds : List WSDirections) (b2 : Board) (o : Vector2D),
      BoardWf cfg.size b2 →
      BoardWf cfg.size (ds.foldl (fun bb d2 => markRaySelectable cfg.size bb o d2) b2) := by
    intro ds
    induction ds with
    | nil =>
      intro b2 o h
      exact h
    | cons d2 rest ih =>
      intro b2 o h
      rw [List.foldl_cons]
      exact ih _ o (boardWf_markRay h o d2)
  by_cases h1 : 1 < count
  · have h0 : ¬count = 0 := by omega
    have he1 : ¬count = 1 := by omega
    simp only [calculateSelectables, if_neg h0, if_neg he1, if_pos h1]
    cases ls with
    | none => exact boardWf_setCellFieldTo wf _
    | some a =>
      cases hscan : getAdjacentSelectedVectorDirection cfg.size
          (setCellFieldTo (fun c => { c with selectable := false }) b) a with
      | none =>
        simp only [hscan]
        exact boardWf_setCellFieldTo wf _
      | some sd =>
        cases hinv : getInverseDirection sd with
        | none =>
          simp only [hscan, hinv]
          exact boardWf_setCellFieldTo wf _
        | some dv =>
          simp only [hscan, hinv]
          exact boardWf_markRay (boardWf_setCellFieldTo wf _) a dv
  · by_cases h0 : count = 0
    · subst h0
      have heq : calculateSelectables cfg 0 ls b =
          setCellFieldTo (fun c => { c with selectable := true }) b := rfl
      rw [heq]
      exact boardWf_setCellFieldTo wf _
    · have he1 : count = 1 := by omega
      subst he1
      cases ls with
      | none => exact wf
      | some a =>
        have heq : calculateSelectables cfg 1 (some a) b =
            cfg.allowedDirections.foldl (fun bb d2 => markRaySelectable cfg.size bb a d2)
              (setCellFieldTo (fun c => { c with selectable := false }) b) := rfl
        rw [heq]
        exact hdirfold _ _ a (boardWf_setCellFieldTo wf _)

theorem dirfold_selectable {size : Nat} {o : Vector2D} :
    ∀ (ds : List WSDirections) (b : Board), BoardWf size b → ∀ q,
      ((cellAt (ds.foldl (fun bb d2 => markRaySelectable size bb o d2) b) q).selectable =
          true ↔
        ((cellAt b q).selectable = true ∨ ∃ d ∈ ds, q ∈ rayList size o d)) := by
  intro ds
  induction ds with
  | nil =>
    intro b wf q
    simp
  | cons d rest ih =>
    intro b wf q
    rw [List.foldl_cons, ih _ (boardWf_markRay wf o d) q]
    unfold markRaySelectable
    rw [markfold_flag Cell.selectable (fun c => { c with selectable := true })
        (fun c => rfl) (fun c => Or.inl rfl) (rayList size o d) b q wf
        (fun r hr => mem_rayList_inBoard hr)]
    constructor
    · rintro ((h | h) | ⟨e, he, hq⟩)
      · exact Or.inl h
      · exact Or.inr ⟨d, List.mem_cons_self d rest, h⟩
      · exact Or.inr ⟨e, List.mem_cons_of_mem d he, hq⟩
    · rintro (h | ⟨e, he, hq⟩)
      · exact Or.inl (Or.inl h)
      · rcases List.mem_cons.mp he with rfl | he2
        · exact Or.inl (Or.inr hq)
        · exact Or.inr ⟨e, he2, hq⟩

theorem calcSel_zero {cfg : WSConfig} {b : Board} (wf : BoardWf cfg.size b)
    {p : Vector2D} (hp : isVectorInBoard cfg.size p = true) (ls : Option Vector2D) :
    (cellAt (calculateSelectables cfg 0 ls b) p).selectable = true := by
  have heq : calculateSelectables cfg 0 ls b =
      setCellFieldTo (fun c => { c with selectable := true }) b := rfl
  rw [heq, cellAt_setCellFieldTo wf hp]

theorem calcSel_one {cfg : WSConfig} {b : Board} (wf : BoardWf cfg.size b)
    (a : Vector2D) {p : Vector2D} (hp : isVectorInBoard cfg.size p = true) :
    ((cellAt (calculateSelectables cfg 1 (some a) b) p).selectable = true ↔
      ∃ d ∈ cfg.allowedDirections, p ∈ rayList cfg.size a d) := by
  have heq : calculateSelectables cfg 1 (some a) b =
      cfg.allowedDirections.foldl (fun bb d2 => markRaySelectable cfg.size bb a d2)
        (setCellFieldTo (fun c => { c with selectable := false }) b) := rfl
  rw [heq, dirfold_selectable _ _ (boardWf_setCellFieldTo wf _) p,
    cellAt_setCellFieldTo wf hp]
  simp

theorem scan_setF {size : Nat} (b : Board) (v : Vector2D) :
    getAdjacentSelectedVectorDirection size
      (setCellFieldTo (fun c => { c with selectable := false }) b) v =
    getAdjacentSelectedVectorDirection size b v := by
  unfold getAdjacentSelectedVectorDirection
  apply find?_congr_mem
  intro d _
  cases hmv : moveInDirection size v d with
  | none => simp [hmv]
  | some nv =>
    simp only [hmv]
    exact cellAt_setCellFieldTo_preserve Cell.selected
      (fun c => { c with selectable := false }) (fun c => rfl) b nv

theorem calcSel_many {cfg : WSConfig} {b : Board}
    {count : Nat} (hc : 2 ≤ count) {ls : Vector2D} {sd dinv : WSDirections}
    (hscan : getAdjacentSelectedVectorDirection cfg.size b ls = some sd)
    (hinv2 : getInverseDirection sd = some dinv) :
    calculateSelectables cfg count (some ls) b =
      markRaySelectable cfg.size
        (setCellFieldTo (fun c => { c with selectable := false }) b) ls dinv := by
  have h0 : ¬count = 0 := by omega
  have he1 : ¬count = 1 := by omega
  have h1 : 1 < count := by omega
  have hscan2 : getAdjacentSelectedVectorDirection cfg.size
      (setCellFieldTo (fun c => { c with selectable := false }) b) ls = some sd := by
    rw [scan_setF]
    exact hscan
  simp only [calculateSelectables, if_neg h0, if_neg he1, if_pos h1, hscan2, hinv2]

theorem calcSel_many_selectable {cfg : WSConfig} {b : Board} (wf : BoardWf cfg.size b)
    {count : Nat} (hc : 2 ≤ count) {ls : Vector2D} {sd dinv : WSDirections}
    (hscan : getAdjacentSelectedVectorDirection cfg.size b ls = some sd)
    (hinv2 : getInverseDirection sd = some dinv)
    {p : Vector2D} (hp : isVectorInBoard cfg.size p = true) :
    ((cellAt (calculateSelectables cfg count (some ls) b) p).selectable = true ↔
      p ∈ rayList cfg.size ls dinv) := by
  rw [calcSel_many hc hscan hinv2]
  unfold markRaySelectable
  rw [markfold_flag Cell.selectable (fun c => { c with selectable := true })
      (fun c => rfl) (fun c => Or.inl rfl) (rayList cfg.size ls dinv) _ p
      (boardWf_setCellFieldTo wf _) (fun r hr => mem_rayList_inBoard hr),
    cellAt_setCellFieldTo wf hp]
  simp

/-! ## Path arithmetic helpers -/

theorem map_stepN_shift_gen (p : Vector2D) (d : WSDirections) (m : Nat) :
    ∀ (n s : Nat), (List.range' s n).map (fun k => stepN (stepN p d m) d k) =
      (List.range' (s + m) n).map (stepN p d) := by
  intro n
  induction n with
  | zero =>
    intro s
    rfl
  | succ nn ih =>
    intro s
    rw [List.range'_succ, List.range'_succ]
    simp only [List.map_cons]
    rw [ih (s + 1)]
    congr 1
    · rw [← stepN_add]
      congr 1
      omega
    · congr 2
      omega

theorem wordPathPos_append (a : Vector2D) (d : WSDirections) (n k : Nat) :
    wordPathPos a d (n + k) = wordPathPos a d n ++ (List.range' n k).map (stepN a d) := by
  unfold wordPathPos
  rw [List.range_eq_range', List.range_eq_range', ← List.map_append]
  congr 1
  have h := List.range'_append 0 n k 1
  simp only [Nat.zero_add, Nat.mul_one, Nat.one_mul] at h
  rw [Nat.add_comm n k, ← h]

theorem wordPathPos_nodup {a : Vector2D} {d : WSDirections} (hd : realDir d) (n : Nat) :
    (wordPathPos a d n).Nodup := by
  unfold wordPathPos
  refine List.Nodup.map ?_ (List.nodup_range n)
  intro k1 k2 hk
  exact stepN_inj hd hk

/-! ## Preservation through the flag-only play operations -/

theorem hlWalk_preserve {β : Type _} (g : Cell → β)
    (hf : ∀ c, g { c with highlighted := true } = g c) {size : Nat} {d : WSDirections}
    {target : Vector2D} :
    ∀ (fuel : Nat) (ov : Option Vector2D) (b : Board) (q : Vector2D),
      g (cellAt (hlWalk size d target fuel ov b) q) = g (cellAt b q) := by
  intro fuel
  induction fuel with
  | zero =>
    intro ov b q
    cases ov <;> rfl
  | succ f ih =>
    intro ov b q
    cases ov with
    | none => rfl
    | some v =>
      simp only [hlWalk]
      by_cases hv : v = target
      · rw [if_pos hv]
        exact cellAt_updateCell_preserve g (fun c => { c with highlighted := true }) hf b v q
      · rw [if_neg hv, ih]
        exact cellAt_updateCell_preserve g (fun c => { c with highlighted := true }) hf b v q

theorem boardWf_hlWalk {size : Nat} {d : WSDirections} {target : Vector2D} :
    ∀ (fuel : Nat) (ov : Option Vector2D) (b : Board), BoardWf size b →
      BoardWf size (hlWalk size d target fuel ov b) := by
  intro fuel
  induction fuel with
  | zero =>
    intro ov b wf
    cases ov <;> exact wf
  | succ f ih =>
    intro ov b wf
    cases ov with
    | none => exact wf
    | some v =>
      simp only [hlWalk]
      by_cases hv : v = target
      · rw [if_pos hv]
        exact boardWf_updateCell wf _ _
      · rw [if_neg hv]
        exact ih _ _ (boardWf_updateCell wf _ _)

theorem cellAt_hightlight_preserve {β : Type _} (g : Cell → β)
    (hfT : ∀ c, g { c with highlighted := true } = g c)
    (hfF : ∀ c, g { c with highlighted := false } = g c)
    (cfg : WSConfig) (b : Board) (o t : Vector2D) (q : Vector2D) :
    g (cellAt (hightlightCells cfg b o t) q) = g (cellAt b q) := by
  unfold hightlightCells
  cases hgd : getDirectionFrom2Vectors cfg.size o t with
  | none =>
    simp only [hgd]
    exact cellAt_setCellFieldTo_preserve g (fun c => { c with highlighted := false }) hfF b q
  | some d =>
    simp only [hgd]
    rw [hlWalk_preserve g hfT]
    exact cellAt_setCellFieldTo_preserve g (fun c => { c with highlighted := false }) hfF b q

theorem boardWf_hightlight {cfg : WSConfig} {b : Board} (wf : BoardWf cfg.size b)
    (o t : Vector2D) : BoardWf cfg.size (hightlightCells cfg b o t) := by
  unfold hightlightCells
  cases hgd : getDirectionFrom2Vectors cfg.size o t with
  | none =>
    simp only [hgd]
    exact boardWf_setCellFieldTo wf _
  | some d =>
    simp only [hgd]
    exact boardWf_hlWalk _ _ _ (boardWf_setCellFieldTo wf _)

/-! ## The selection invariant: transport and the easy operations -/

theorem selInv_congr {cfg : WSConfig} {s s2 : WSState} {h : List Vector2D}
    (hinv : SelInv cfg (s, h))
    (hwf : BoardWf cfg.size s2.board)
    (hlet : ∀ p, isVectorInBoard cfg.size p = true →
      (cellAt s2.board p).letter = (cellAt s.board p).letter)
    (hselc : ∀ p, isVectorInBoard cfg.size p = true →
      (cellAt s2.board p).selected = (cellAt s.board p).selected)
    (hselb : ∀ p, isVectorInBoard cfg.size p = true →
      (cellAt s2.board p).selectable = (cellAt s.board p).selectable)
    (hc : s2.selectedCount = s.selectedCount)
    (hl : s2.lastSelectedVector = s.lastSelectedVector)
    (hw : s2.currentWord = s.currentWord) :
    SelInv cfg (s2, h) := by
  obtain ⟨hbw, hcase⟩ := hinv
  refine ⟨hwf, ?_⟩
  rcases hcase with ⟨⟨h1, h2, h3, h4, h5⟩, hh⟩ | ⟨a, ⟨h1, h2, h3, h4, h5, h6⟩, hh⟩ |
    ⟨a, d, n, ⟨hd, hn, h1, h2, h3, h4, h5, h6⟩, hh⟩
  · refine Or.inl ⟨⟨hc.trans h1, hl.trans h2, hw.trans h3, ?_, ?_⟩, hh⟩
    · intro p hp
      rw [hselc p hp]
      exact h4 p hp
    · intro p hp
      rw [hselb p hp]
      exact h5 p hp
  · refine Or.inr (Or.inl ⟨a, ⟨hc.trans h1, hl.trans h2, h3, ?_, ?_, ?_⟩, hh⟩)
    · rw [hw, h4, hlet a h3]
    · intro p hp
      rw [hselc p hp]
      constructor
      · intro hx
        exact (h5 p hp).mp hx
      · intro hx
        exact (h5 p hp).mpr hx
    · intro p hp
      rw [hselb p hp]
      exact h6 p hp
  · refine Or.inr (Or.inr ⟨a, d, n, ⟨hd, hn, hc.trans h1, h2, hl.trans h3, ?_, ?_, ?_⟩, hh⟩)
    · rw [hw, h4]
      apply lettersAlong_congr
      intro q hq
      obtain ⟨k2, hk2, rfl⟩ := mem_wordPathPos.mp hq
      exact (hlet _ (h2 k2 hk2)).symm
    · intro p hp
      rw [hselc p hp]
      exact h5 p hp
    · intro p hp
      rw [hselb p hp]
      exact h6 p hp

theorem selInv_reset (cfg : WSConfig) (s : WSState) (wf : BoardWf cfg.size s.board) :
    SelInv cfg (resetCurrentSelection cfg s, []) := by
  have wf1 : BoardWf cfg.size
      (setCellFieldTo (fun c => { c with selected := false }) s.board) :=
    boardWf_setCellFieldTo wf _
  have wf2 : BoardWf cfg.size (setCellFieldTo (fun c => { c with highlighted := false })
      (setCellFieldTo (fun c => { c with selected := false }) s.board)) :=
    boardWf_setCellFieldTo wf1 _
  refine ⟨boardWf_calcSel wf2 0 none, Or.inl ⟨⟨rfl, rfl, rfl, ?_, ?_⟩, rfl⟩⟩
  · intro p hp
    show (cellAt (calculateSelectables cfg 0 none
        (setCellFieldTo (fun c => { c with highlighted := false })
          (setCellFieldTo (fun c => { c with selected := false }) s.board))) p).selected =
      false
    rw [calcSel_preserve Cell.selected (fun c v => rfl) cfg 0 none _ p,
      cellAt_setCellFieldTo_preserve Cell.selected
        (fun c => { c with highlighted := false }) (fun c => rfl) _ p,
      cellAt_setCellFieldTo wf hp]
  · intro p hp
    exact calcSel_zero wf2 hp none

theorem selInv_discover {cfg : WSConfig} {s : WSState} {h : List Vector2D}
    (hinv : SelInv cfg (s, h)) (i : Nat) : SelInv cfg (discoverWord s i, h) := by
  unfold discoverWord
  cases hw : s.words.get? i with
  | none => exact hinv
  | some w =>
    refine selInv_congr hinv (boardWf_foldl_update _ _ hinv.1) ?_ ?_ ?_ rfl rfl rfl
    · intro p hp
      exact cellAt_foldl_preserve Cell.letter (fun c => { c with shown := true })
        (fun c => rfl) _ _ p
    · intro p hp
      exact cellAt_foldl_preserve Cell.selected (fun c => { c with shown := true })
        (fun c => rfl) _ _ p
    · intro p hp
      exact cellAt_foldl_preserve Cell.selectable (fun c => { c with shown := true })
        (fun c => rfl) _ _ p

theorem selInv_found {cfg : WSConfig} {s : WSState} {h : List Vector2D}
    (hinv : SelInv cfg (s, h)) (i : Nat) : SelInv cfg (setWordAsFound s i, h) := by
  unfold setWordAsFound
  cases hw : s.words.get? i with
  | none => exact hinv
  | some w =>
    refine selInv_congr hinv (boardWf_foldl_update _ _ hinv.1) ?_ ?_ ?_ rfl rfl rfl
    · intro p hp
      exact cellAt_foldl_preserve Cell.letter (fun c => { c with found := true })
        (fun c => rfl) _ _ p
    · intro p hp
      exact cellAt_foldl_preserve Cell.selected (fun c => { c with found := true })
        (fun c => rfl) _ _ p
    · intro p hp
      exact cellAt_foldl_preserve Cell.selectable (fun c => { c with found := true })
        (fun c => rfl) _ _ p

theorem selInv_showWord {cfg : WSConfig} {s : WSState} {h : List Vector2D}
    (hinv : SelInv cfg (s, h)) (w : List Char) (sub : Bool) :
    SelInv cfg ((showWordModel s w sub).2, h) := by
  unfold showWordModel
  dsimp only
  split
  · exact selInv_discover hinv _
  · split
    · exact selInv_found hinv _
    · exact hinv

theorem selInv_submit {cfg : WSConfig} {s : WSState} {h : List Vector2D}
    (hinv : SelInv cfg (s, h)) : SelInv cfg ((submitCurrentWord cfg s).2, []) := by
  have h2 := selInv_showWord hinv s.currentWord true
  have hreset := selInv_reset cfg (showWordModel s s.currentWord true).2 h2.1
  obtain ⟨hbw, hcase⟩ := hreset
  exact ⟨hbw, hcase⟩

theorem selInv_highlight {cfg : WSConfig} {s : WSState} {h : List Vector2D}
    (hinv : SelInv cfg (s, h)) (pos : Vector2D) :
    SelInv cfg ((highlightCell cfg s pos).2, h) := by
  unfold highlightCell
  cases hl : s.lastSelectedVector with
  | none => exact hinv
  | some last =>
    refine selInv_congr hinv (boardWf_hightlight hinv.1 last pos) ?_ ?_ ?_ rfl hl.symm rfl
    · intro p hp
      exact cellAt_hightlight_preserve Cell.letter (fun c => rfl) (fun c => rfl)
        cfg _ last pos p
    · intro p hp
      exact cellAt_hightlight_preserve Cell.selected (fun c => rfl) (fun c => rfl)
        cfg _ last pos p
    · intro p hp
      exact cellAt_hightlight_preserve Cell.selectable (fun c => rfl) (fun c => rfl)
        cfg _ last pos p

theorem selInv_unhighlight {cfg : WSConfig} {s : WSState} {h : List Vector2D}
    (hinv : SelInv cfg (s, h)) : SelInv cfg (unHighlightBoard s, h) := by
  refine selInv_congr hinv (boardWf_setCellFieldTo hinv.1 _) ?_ ?_ ?_ rfl rfl rfl
  · intro p hp
    exact cellAt_setCellFieldTo_preserve Cell.letter
      (fun c => { c with highlighted := false }) (fun c => rfl) _ p
  · intro p hp
    exact cellAt_setCellFieldTo_preserve Cell.selected
      (fun c => { c with highlighted := false }) (fun c => rfl) _ p
  · intro p hp
    exact cellAt_setCellFieldTo_preserve Cell.selectable
      (fun c => { c with highlighted := false }) (fun c => rfl) _ p

/-! ## The selection invariant through selectCell -/

theorem selectCell_reject {cfg : WSConfig} {s : WSState} {pos : Vector2D}
    (hsel : ¬(cellAt s.board pos).selectable = true) :
    selectCell cfg s pos = (false, s) ∧ selPathOf cfg s pos = [] := by
  constructor
  · unfold selectCell
    rw [if_neg hsel]
  · unfold selPathOf
    rw [if_neg hsel]

theorem selInv_select_idle {cfg : WSConfig} (hcfg : WSConfigWf cfg) {s : WSState}
    (wf : BoardWf cfg.size s.board)
    (hidle : SelIdle cfg s) {pos : Vector2D}
    (hposin : isVectorInBoard cfg.size pos = true)
    (hsel : (cellAt s.board pos).selectable = true) :
    SelAnchored cfg (selectCell cfg s pos).2 pos ∧
    BoardWf cfg.size (selectCell cfg s pos).2.board ∧
    selPathOf cfg s pos = [pos] := by
  obtain ⟨hcnt, hlsv, hcw, hselF, hselT⟩ := hidle
  have hstate : (selectCell cfg s pos).2 =
      { s with
          board := calculateSelectables cfg 1 (some pos)
            (updateCell s.board pos (fun c => { c with selected := true }))
          currentWord := (cellAt s.board pos).letter.toList
          selectedCount := 1
          lastSelectedVector := some pos } := by
    unfold selectCell
    rw [if_pos hsel, hlsv, hcnt, hcw]
    rfl
  have wfb : BoardWf cfg.size
      (updateCell s.board pos (fun c => { c with selected := true })) :=
    boardWf_updateCell wf pos _
  have hletter : ∀ q, (cellAt (calculateSelectables cfg 1 (some pos)
      (updateCell s.board pos (fun c => { c with selected := true }))) q).letter =
      (cellAt s.board q).letter := by
    intro q
    rw [calcSel_preserve Cell.letter (fun c v => rfl) cfg 1 (some pos) _ q,
      cellAt_updateCell_preserve Cell.letter (fun c => { c with selected := true })
        (fun c => rfl) s.board pos q]
  have hselected : ∀ q, (cellAt (calculateSelectables cfg 1 (some pos)
      (updateCell s.board pos (fun c => { c with selected := true }))) q).selected =
      (cellAt (updateCell s.board pos (fun c => { c with selected := true })) q).selected :=
    fun q => calcSel_preserve Cell.selected (fun c v => rfl) cfg 1 (some pos) _ q
  rw [hstate]
  refine ⟨⟨rfl, rfl, hposin, ?_, ?_, ?_⟩, boardWf_calcSel wfb 1 (some pos), ?_⟩
  · show (cellAt s.board pos).letter.toList = (cellAt (calculateSelectables cfg 1 (some pos)
        (updateCell s.board pos (fun c => { c with selected := true }))) pos).letter.toList
    rw [hletter pos]
  · intro p hp
    show (cellAt (calculateSelectables cfg 1 (some pos)
        (updateCell s.board pos (fun c => { c with selected := true }))) p).selected =
      true ↔ p = pos
    rw [hselected p]
    by_cases hppos : p = pos
    · subst hppos
      rw [cellAt_updateCell_self wf hposin]
      simp
    · rw [cellAt_updateCell_ne _ hppos, hselF p hp]
      simp [hppos]
  · intro p hp
    show (cellAt (calculateSelectables cfg 1 (some pos)
        (updateCell s.board pos (fun c => { c with selected := true }))) p).selectable =
      true ↔ ∃ d ∈ cfg.allowedDirections, ReachableBy cfg.size pos d p
    constructor
    · intro hx
      obtain ⟨d2, hd2, hmem⟩ := (calcSel_one wfb pos hp).mp hx
      exact ⟨d2, hd2, (mem_rayList_iff (hcfg.2 d2 hd2)).mp hmem⟩
    · rintro ⟨d2, hd2, hr⟩
      exact (calcSel_one wfb pos hp).mpr ⟨d2, hd2, (mem_rayList_iff (hcfg.2 d2 hd2)).mpr hr⟩
  · unfold selPathOf
    rw [if_pos hsel, hlsv]

theorem selectCell_directed_step {cfg : WSConfig} {s : WSState}
    {a : Vector2D} {d : WSDirections} {n : Nat} (hd : realDir d) (hn : 1 ≤ n)
    (wf : BoardWf cfg.size s.board)
    (hcnt : s.selectedCount = n)
    (hbound : ∀ k, k < n → isVectorInBoard cfg.size (stepN a d k) = true)
    (hlsv : s.lastSelectedVector = some (stepN a d (n - 1)))
    (hcw : s.currentWord = lettersAlong s.board (wordPathPos a d n))
    (hselIff : ∀ p, isVectorInBoard cfg.size p = true →
      ((cellAt s.board p).selected = true ↔ p ∈ wordPathPos a d n))
    {pos : Vector2D}
    (hsel : (cellAt s.board pos).selectable = true)
    (hreach : ReachableBy cfg.size (stepN a d (n - 1)) d pos) :
    ∃ k, 1 ≤ k ∧
      SelDirected cfg (selectCell cfg s pos).2 a d (n + k) ∧
      BoardWf cfg.size (selectCell cfg s pos).2.board ∧
      selPathOf cfg s pos = (List.range' n k).map (stepN a d) := by
  obtain ⟨k, hk1, hposk, hchain⟩ := hreach
  have hgd : getDirectionFrom2Vectors cfg.size (stepN a d (n - 1)) pos = some d :=
    getDirectionFrom2Vectors_of_reachable hd ⟨k, hk1, hposk, hchain⟩
  have hkle : k ≤ cfg.size :=
    stepN_le_size_of_inBoard hd (hchain 1 le_rfl hk1) (hchain k hk1 le_rfl) hk1
  have hwalk : walkPositions cfg.size d pos cfg.size
      (moveInDirection cfg.size (stepN a d (n - 1)) d) =
      (List.range' 1 k).map (stepN (stepN a d (n - 1)) d) :=
    walkPositions_spec hd k cfg.size (stepN a d (n - 1)) pos hk1 hkle hposk hchain
  have hshift : (List.range' 1 k).map (stepN (stepN a d (n - 1)) d) =
      (List.range' n k).map (stepN a d) := by
    have h2 := map_stepN_shift_gen a d (n - 1) k 1
    rw [show 1 + (n - 1) = n from by omega] at h2
    exact h2
  have hpos2 : pos = stepN a d (n - 1 + k) := by
    rw [hposk, stepN_add]
  have hboundall : ∀ j, j < n + k → isVectorInBoard cfg.size (stepN a d j) = true := by
    intro j hj
    by_cases hjn : j < n
    · exact hbound j hjn
    · have h2 : stepN a d j = stepN (stepN a d (n - 1)) d (j - (n - 1)) := by
        rw [← stepN_add]
        congr 1
        omega
      rw [h2]
      exact hchain (j - (n - 1)) (by omega) (by omega)
  have hsegin : ∀ r ∈ (List.range' n k).map (stepN a d),
      isVectorInBoard cfg.size r = true := by
    intro r hr
    obtain ⟨j, hj, rfl⟩ := List.mem_map.mp hr
    have hj2 := List.mem_range'_1.mp hj
    exact hboundall j (by omega)
  have hselmark0 : ∀ q, isVectorInBoard cfg.size q = true →
      ((cellAt (((List.range' n k).map (stepN a d)).foldl
          (fun bb r => updateCell bb r (fun c => { c with selected := true }))
          s.board) q).selected = true ↔ q ∈ wordPathPos a d (n + k)) := by
    intro q hq
    rw [markfold_flag Cell.selected (fun c => { c with selected := true })
        (fun c => rfl) (fun c => Or.inl rfl) ((List.range' n k).map (stepN a d))
        s.board q wf hsegin, wordPathPos_append a d n k]
    constructor
    · rintro (hx | hx)
      · exact List.mem_append_left _ ((hselIff q hq).mp hx)
      · exact List.mem_append_right _ hx
    · intro hx
      rcases List.mem_append.mp hx with hx | hx
      · exact Or.inl ((hselIff q hq).mpr hx)
      · exact Or.inr hx
  have wfmark : BoardWf cfg.size (((List.range' n k).map (stepN a d)).foldl
      (fun bb r => updateCell bb r (fun c => { c with selected := true })) s.board) :=
    boardWf_foldl_update _ _ wf
  obtain ⟨m, hm⟩ : ∃ m, n + k = m + 2 := ⟨n + k - 2, by omega⟩
  have hbm : ∀ j, j < m + 2 → isVectorInBoard cfg.size (stepN a d j) = true := by
    rw [← hm]
    exact hboundall
  have hsm : ∀ q, isVectorInBoard cfg.size q = true →
      ((cellAt (((List.range' n k).map (stepN a d)).foldl
          (fun bb r => updateCell bb r (fun c => { c with selected := true }))
          s.board) q).selected = true ↔ q ∈ wordPathPos a d (m + 2)) := by
    rw [← hm]
    exact hselmark0
  obtain ⟨e, hscanE, hinvE⟩ := adjacentScan_of_segment hd hbm hsm
  have hendpoint : stepN a d (m + 1) = pos := by
    rw [hpos2]
    congr 1
    omega
  rw [hendpoint] at hscanE
  have hstate : (selectCell cfg s pos).2 =
      { s with
          board := calculateSelectables cfg (s.selectedCount + k) (some pos)
            (((List.range' n k).map (stepN a d)).foldl
              (fun bb r => updateCell bb r (fun c => { c with selected := true })) s.board)
          currentWord := s.currentWord ++
            lettersAlong s.board ((List.range' n k).map (stepN a d))
          selectedCount := s.selectedCount + k
          lastSelectedVector := some pos } := by
    unfold selectCell
    rw [if_pos hsel]
    simp only [hlsv, hgd, selWalk_spec, hwalk, hshift, List.length_map,
      List.length_range']
  refine ⟨k, hk1, ?_, ?_, ?_⟩
  · rw [hstate]
    refine ⟨hd, by omega, ?_, hboundall, ?_, ?_, ?_, ?_⟩
    · show s.selectedCount + k = n + k
      rw [hcnt]
    · show some pos = some (stepN a d (n + k - 1))
      rw [hpos2, show n - 1 + k = n + k - 1 from by omega]
    · show s.currentWord ++ lettersAlong s.board ((List.range' n k).map (stepN a d)) =
        lettersAlong (calculateSelectables cfg (s.selectedCount + k) (some pos)
          (((List.range' n k).map (stepN a d)).foldl
            (fun bb r => updateCell bb r (fun c => { c with selected := true }))
            s.board)) (wordPathPos a d (n + k))
      rw [hcw, ← lettersAlong_append, ← wordPathPos_append]
      apply lettersAlong_congr
      intro q hq
      rw [calcSel_preserve Cell.letter (fun c v => rfl) cfg _ _ _ q,
        cellAt_foldl_preserve Cell.letter (fun c => { c with selected := true })
          (fun c => rfl) _ _ q]
    · intro p hp
      show (cellAt (calculateSelectables cfg (s.selectedCount + k) (some pos)
          (((List.range' n k).map (stepN a d)).foldl
            (fun bb r => updateCell bb r (fun c => { c with selected := true }))
            s.board)) p).selected = true ↔ p ∈ wordPathPos a d (n + k)
      rw [calcSel_preserve Cell.selected (fun c v => rfl) cfg _ _ _ p]
      exact hselmark0 p hp
    · intro p hp
      show (cellAt (calculateSelectables cfg (s.selectedCount + k) (some pos)
          (((List.range' n k).map (stepN a d)).foldl
            (fun bb r => updateCell bb r (fun c => { c with selected := true }))
            s.board)) p).selectable = true ↔
        ReachableBy cfg.size (stepN a d (n + k - 1)) d p
      rw [hcnt, calcSel_many_selectable wfmark (by omega) hscanE hinvE hp,
        mem_rayList_iff hd, hpos2, show n - 1 + k = n + k - 1 from by omega]
  · rw [hstate]
    exact boardWf_calcSel wfmark (s.selectedCount + k) (some pos)
  · unfold selPathOf
    rw [if_pos hsel]
    simp only [hlsv, hgd, hwalk, hshift]

theorem selInv_select {cfg : WSConfig} (hcfg : WSConfigWf cfg) {s : WSState}
    {h : List Vector2D} (hinv : SelInv cfg (s, h)) (pos : Vector2D) :
    SelInv cfg ((selectCell cfg s pos).2, h ++ selPathOf cfg s pos) := by
  obtain ⟨wf, hcase⟩ := hinv
  dsimp only at wf hcase
  by_cases hsel : (cellAt s.board pos).selectable = true
  case neg =>
    obtain ⟨hs1, hs2⟩ := selectCell_reject hsel
    rw [hs1, hs2, List.append_nil]
    exact ⟨wf, hcase⟩
  case pos =>
  have hposin : isVectorInBoard cfg.size pos = true := by
    by_contra hnin
    rw [cellAt_not_inBoard wf hnin] at hsel
    simp [inertCell] at hsel
  rcases hcase with ⟨hidle, hh⟩ | ⟨a, hanch, hh⟩ | ⟨a, d, n, hdir, hh⟩
  · obtain ⟨hanch2, hwf2, hpath⟩ := selInv_select_idle hcfg wf hidle hposin hsel
    rw [hpath, hh]
    exact ⟨hwf2, Or.inr (Or.inl ⟨pos, hanch2, rfl⟩)⟩
  · obtain ⟨hcnt, hlsv, hain, hcw, hselIff, hselbIff⟩ := hanch
    obtain ⟨d, hdmem, hreach⟩ := (hselbIff pos hposin).mp hsel
    have hd : realDir d := hcfg.2 d hdmem
    have hb1 : ∀ k, k < 1 → isVectorInBoard cfg.size (stepN a d k) = true := by
      intro k hk
      have hk0 : k = 0 := by omega
      subst hk0
      rw [stepN_zero]
      exact hain
    have hlsv1 : s.lastSelectedVector = some (stepN a d (1 - 1)) := by
      rw [stepN_zero]
      exact hlsv
    have hcw1 : s.currentWord = lettersAlong s.board (wordPathPos a d 1) := by
      rw [hcw]
      have h1 : wordPathPos a d 1 = [a] := by
        unfold wordPathPos
        rw [show List.range 1 = [0] from rfl]
        simp [stepN_zero]
      rw [h1]
      simp [lettersAlong]
    have hsel1 : ∀ p, isVectorInBoard cfg.size p = true →
        ((cellAt s.board p).selected = true ↔ p ∈ wordPathPos a d 1) := by
      intro p hp
      rw [hselIff p hp, mem_wordPathPos]
      constructor
      · intro hx
        refine ⟨0, by omega, ?_⟩
        rw [stepN_zero]
        exact hx
      · rintro ⟨k2, hk2, hpk⟩
        have hk0 : k2 = 0 := by omega
        subst hk0
        rw [stepN_zero] at hpk
        exact hpk
    have hreach1 : ReachableBy cfg.size (stepN a d (1 - 1)) d pos := by
      rw [stepN_zero]
      exact hreach
    obtain ⟨k, hk1, hdirNew, hwfNew, hpath⟩ :=
      selectCell_directed_step hd le_rfl wf hcnt hb1 hlsv1 hcw1 hsel1 hsel hreach1
    rw [hpath, hh]
    refine ⟨hwfNew, Or.inr (Or.inr ⟨a, d, 1 + k, hdirNew, ?_⟩)⟩
    rw [Nat.add_comm 1 k, wordPathPos_cons]
    rfl
  · obtain ⟨hd, hn2, hcnt, hbound, hlsv, hcw, hselIff, hselbIff⟩ := hdir
    have hreach := (hselbIff pos hposin).mp hsel
    obtain ⟨k, hk1, hdirNew, hwfNew, hpath⟩ :=
      selectCell_directed_step hd (by omega) wf hcnt hbound hlsv hcw hselIff hsel hreach
    rw [hpath, hh]
    refine ⟨hwfNew, Or.inr (Or.inr ⟨a, d, n + k, hdirNew, ?_⟩)⟩
    rw [wordPathPos_append]

theorem selInv_applyOp {cfg : WSConfig} (hcfg : WSConfigWf cfg)
    {sh : WSState × List Vector2D} (hinv : SelInv cfg sh) (op : PlayOp) :
    SelInv cfg (applyPlayOpG cfg sh op) := by
  obtain ⟨s, h⟩ := sh
  cases op with
  | selectOp pos => exact selInv_select hcfg hinv pos
  | resetOp => exact selInv_reset cfg s hinv.1
  | submitOp => exact selInv_submit hinv
  | highlightOp pos => exact selInv_highlight hinv pos
  | unhighlightOp => exact selInv_unhighlight hinv
  | showWordOp w sub => exact selInv_showWord hinv w sub

theorem selInv_runPlay (cfg : WSConfig) (hcfg : WSConfigWf cfg) (init : WSState)
    (wf : BoardWf cfg.size init.board) (ops : List PlayOp) :
    SelInv cfg (runPlay cfg init ops) := by
  have h0 : SelInv cfg (resetCurrentSelection cfg init, []) := selInv_reset cfg init wf
  unfold runPlay
  suffices hgen : ∀ (l : List PlayOp) (sh : WSState × List Vector2D), SelInv cfg sh →
      SelInv cfg (l.foldl (applyPlayOpG cfg) sh) by
    exact hgen ops _ h0
  intro l
  induction l with
  | nil =>
    intro sh hsh
    exact hsh
  | cons op rest ih =>
    intro sh hsh
    rw [List.foldl_cons]
    exact ih _ (selInv_applyOp hcfg hsh op)

/-! ## Claim C1 -/

/-- C1: evaluation of the placement checks at the failing input.  On an
empty 6×6 board the word "ab" started at (0,4) going RIGHT fits (its last
letter lands exactly on the board edge) and no letter position along its
path holds a colliding letter, yet `doesWordCollide` reports a collision,
because after checking the final letter it still advances once more and
treats the failed advance past the board edge as a collision. -/
theorem claim1_collide_rejects_edge_placement :
    doesWordFit 6 ['a', 'b'] ⟨0, 4⟩ .RIGHT = true ∧
    isCharCollision true (getBlankBoard 6) 'a' ⟨0, 4⟩ = false ∧
    isCharCollision true (getBlankBoard 6) 'b' ⟨0, 5⟩ = false ∧
    doesWordCollide 6 true (getBlankBoard 6) ['a', 'b'] ⟨0, 4⟩ .RIGHT = true := by
  decide

/-! ## Claim C5 -/

/-- C5: `checkEnd` iterates the registry only over the indices
`0 ≤ w < size` (the board size, not the registry length), so with the
valid board size 6 and a registry of 7 placed words whose found flags are
all set it still reports that the game has not ended. -/
theorem claim5_checkEnd_misses_words_beyond_size :
    (∀ w ∈ List.replicate 7 ({ word := ['a'], pos := [⟨0, 0⟩], found := true, shown := false } : Word),
      (w.found || w.shown) = true) ∧
    checkEnd 6 (List.replicate 7 { word := ['a'], pos := [⟨0, 0⟩], found := true, shown := false }) = false := by
  decide

/-! ## Claim C6 -/

/-- C6 counterexample: the query "cat" differs from the placed word "CAT"
only in letter case (its case normalisation is exactly "CAT"), yet
`getWordIndex` returns -1 because it compares with strict equality and
never normalises the query. -/
theorem claim6_counterexample :
    getStrInCase .UPPER ['c', 'a', 't'] = ['C', 'A', 'T'] ∧
    getWordIndex [{ word := ['C', 'A', 'T'], pos := [], found := false, shown := false }]
      ['c', 'a', 't'] = -1 := by
  decide

/-- Characterisation of the scan `getWordIndexAux` with a running index. -/
theorem getWordIndexAux_spec (q : List Char) (ws : List Word) (k : Nat) :
    (getWordIndexAux q ws k = -1 ∧ ∀ w ∈ ws, w.word ≠ q) ∨
    (∃ i : Nat, getWordIndexAux q ws k = ((k + i : Nat) : Int) ∧
      (∃ w, ws.get? i = some w ∧ w.word = q) ∧
      ∀ j, j < i → ∀ w, ws.get? j = some w → w.word ≠ q) := by
  induction ws generalizing k with
  | nil =>
    left
    exact ⟨rfl, by simp⟩
  | cons w rest ih =>
    by_cases hw : w.word = q
    · right
      refine ⟨0, by simp [getWordIndexAux, hw], ⟨w, by simp, hw⟩, ?_⟩
      intro j hj
      exact absurd hj (Nat.not_lt_zero j)
    · rcases ih (k + 1) with ⟨h1, h2⟩ | ⟨i, h1, h2, h3⟩
      · left
        refine ⟨by simp [getWordIndexAux, hw, h1], ?_⟩
        intro w2 hw2
        rcases List.mem_cons.mp hw2 with rfl | hmem
        · exact hw
        · exact h2 _ hmem
      · right
        refine ⟨i + 1, ?_, ?_, ?_⟩
        · have : k + (i + 1) = (k + 1) + i := by omega
          rw [this]
          simp [getWordIndexAux, hw, h1]
        · simpa using h2
        · intro j hj w2 hw2
          match j with
          | 0 =>
            simp at hw2
            subst hw2
            exact hw
          | jj + 1 =>
            exact h3 jj (by omega) w2 (by simpa using hw2)

/-- C6 amended: the registry lookup is an exact, case-SENSITIVE literal
match: it returns the least index whose placed word's text is strictly
equal to the query, and -1 when no placed word's text is strictly equal;
in particular a query differing from a placed word only in letter case is
not found. -/
theorem claim6_amended (ws : List Word) (q : List Char) :
    (getWordIndex ws q = -1 ∧ ∀ w ∈ ws, w.word ≠ q) ∨
    (∃ i : Nat, getWordIndex ws q = (i : Int) ∧
      (∃ w, ws.get? i = some w ∧ w.word = q) ∧
      ∀ j, j < i → ∀ w, ws.get? j = some w → w.word ≠ q) := by
  have h := getWordIndexAux_spec q ws 0
  simpa [getWordIndex] using h

/-! ## Claim C3 -/

/-- C3 counterexample: a run whose first 50 whole-puzzle attempts all fail
does not raise the fatal generation error; the source makes a 51st attempt
(the initial attempt plus 50 retries), and when that 51st attempt succeeds
a playable board is returned. -/
theorem claim3_counterexample :
    generateModel (fun n =>
        if n < 50 then .error "Could not fit word in board: one"
        else .ok ⟨getBlankBoard 6, [], [], false, ""⟩) =
      .ok ⟨getBlankBoard 6, [], [], false, ""⟩ := by
  rfl

/-- All-fail run of the retry loop: when every attempt up to index 50
fails, the loop returns the fatal error carrying the reason of attempt 50
(the 51st and last attempt). -/
theorem generateAux_all_fail (attempts : Nat → Except String WordsearchOutput)
    (es : Nat → String) :
    ∀ fuel times, fuel + times = 50 →
      (∀ i, times ≤ i → i ≤ 50 → attempts i = .error (es i)) →
      generateAux attempts fuel times = .error (maxIterationsError (es 50)) := by
  intro fuel
  induction fuel with
  | zero =>
    intro times ht h
    have h50 : times = 50 := by omega
    subst h50
    simp [generateAux, h 50 le_rfl le_rfl]
  | succ f ih =>
    intro times ht h
    have hat : attempts times = .error (es times) := h times le_rfl (by omega)
    have hlt : ¬ 50 < times + 1 := by omega
    simp only [generateAux, hat, hlt, if_false]
    exact ih (times + 1) (by omega) (fun i h1 h2 => h i (by omega) h2)

/-- C3 amended: a failed placement aborts the whole attempt and `generate`
retries from a fresh blank board and a fresh word sourcing draw for at most
51 whole-puzzle attempts in total (the initial attempt plus 50 retries);
when all 51 fail, a fatal generation error carrying the reason of the last
(51st) failure is raised and no playable board is produced. -/
theorem claim3_amended (attempts : Nat → Except String WordsearchOutput)
    (es : Nat → String) (h : ∀ i, i ≤ 50 → attempts i = .error (es i)) :
    generateModel attempts = .error (maxIterationsError (es 50)) :=
  generateAux_all_fail attempts es 50 0 rfl (fun i _ h2 => h i h2)

/-- Witness for the amended C3 theorem at a concrete failing stream. -/
theorem claim3_amended_witness :
    generateModel (fun _ => .error "Could not fit word in board: one") =
      .error (maxIterationsError "Could not fit word in board: one") :=
  claim3_amended (fun _ => .error "Could not fit word in board: one")
    (fun _ => "Could not fit word in board: one") (fun _ _ => rfl)

/-! ## Claim C9 -/

set_option maxRecDepth 8000 in
/-- C9 counterexample: with target amount 1, length range [1, 5] and a draw
stream whose first 99 draws are rejected (empty words) while the 100th draw
is accepted and completes the target, the source still fails fatally — the
budget counts every draw, not only unsuccessful ones — whereas the spec's
selection (stop at the target amount; fail only after 100 unsuccessful
draws) succeeds with the collected word. -/
theorem claim9_counterexample :
    getRandomWordsFromDictionary (fun n => if n < 99 then [] else ['a', 'b']) 1 1 5 =
      .error "Not enough words in dictionary." ∧
    randomSelectionSpec (fun n => if n < 99 then [] else ['a', 'b']) 1 1 5 =
      some [['a', 'b']] :=
  ⟨rfl, rfl⟩

/-- The sourcing loop with remaining budget `b + 1` equals the selection
with a budget of `b` further draws. -/
theorem getRandomWordsAux_eq_budget (draws : Nat → List Char)
    (amount minLength maxLength : Nat) :
    ∀ b words idx,
      getRandomWordsFromDictionaryAux draws amount minLength maxLength (b + 1) words idx =
        match selectionWithBudget draws amount minLength maxLength b words idx with
        | some ws => .ok ws
        | none => .error "Not enough words in dictionary." := by
  intro b
  induction b with
  | zero =>
    intro words idx
    by_cases h : amount ≤ words.length
    · simp [getRandomWordsFromDictionaryAux, selectionWithBudget, h]
    · simp [getRandomWordsFromDictionaryAux, selectionWithBudget, h]
  | succ bb ih =>
    intro words idx
    by_cases h : amount ≤ words.length
    · simp [getRandomWordsFromDictionaryAux, selectionWithBudget, h]
    · simp only [getRandomWordsFromDictionaryAux, selectionWithBudget, h, if_false,
        if_neg (Nat.succ_ne_zero bb)]
      exact ih _ _

/-- C9 amended: random word sourcing repeatedly draws from the dictionary,
accepting a draw if it is non-empty, not already chosen, and within the
inclusive [minLength, maxLength] range, but its budget counts every draw,
successful or not: it stops successfully exactly when the configured amount
of accepted words is reached within the first 99 draws, and otherwise fails
fatally upon the 100th draw — even when that 100th draw is accepted and
completes the collection. -/
theorem claim9_amended (draws : Nat → List Char) (amount minLength maxLength : Nat) :
    getRandomWordsFromDictionary draws amount minLength maxLength =
      match selectionWithBudget draws amount minLength maxLength 99 [] 0 with
      | some ws => .ok ws
      | none => .error "Not enough words in dictionary." :=
  getRandomWordsAux_eq_budget draws amount minLength maxLength 99 [] 0

/-! ## Claim C4 -/

set_option maxRecDepth 10000 in
/-- C4 counterexample: with RIGHT as the only allowed direction on a blank
4×4 board, selecting (0,0) and then (0,1) leaves two cells selected, and
BOTH (0,2) and (0,3) are selectable afterwards: the third block of
`calculateSelectables` marks the whole remaining ray in the established
direction selectable, not only the single next cell (0,2) that the claim
admits. -/
theorem claim4_counterexample :
    (runPlay claim4DemoCfg claim4DemoInit claim4DemoOps).1.selectedCount = 2 ∧
    (cellAt (runPlay claim4DemoCfg claim4DemoInit claim4DemoOps).1.board
      ⟨0, 2⟩).selectable = true ∧
    (cellAt (runPlay claim4DemoCfg claim4DemoInit claim4DemoOps).1.board
      ⟨0, 3⟩).selectable = true := by
  decide

/-- C4 amended: after any sequence of play operations from a reset start
on a well-formed board, the selectable set follows the selection count:
with 0 selected every in-board cell is selectable; with 1 selected exactly
the cells reachable from the anchor by repeatedly stepping in a configured
allowed direction; with 2 or more selected exactly the cells of the ENTIRE
remaining ray extending the established direction beyond the last selected
cell (the direction found by scanning for an adjacent already-selected
cell and inverting it) — not merely the single adjacent next cell. -/
theorem claim4_selectables_rule (cfg : WSConfig) (hcfg : WSConfigWf cfg)
    (init : WSState) (wf : BoardWf cfg.size init.board) (ops : List PlayOp) :
    ((runPlay cfg init ops).1.selectedCount = 0 →
      ∀ p, isVectorInBoard cfg.size p = true →
        (cellAt (runPlay cfg init ops).1.board p).selectable = true) ∧
    ((runPlay cfg init ops).1.selectedCount = 1 →
      ∃ a, (runPlay cfg init ops).1.lastSelectedVector = some a ∧
        ∀ p, isVectorInBoard cfg.size p = true →
          ((cellAt (runPlay cfg init ops).1.board p).selectable = true ↔
            ∃ d ∈ cfg.allowedDirections, ReachableBy cfg.size a d p)) ∧
    (2 ≤ (runPlay cfg init ops).1.selectedCount →
      ∃ last d, (runPlay cfg init ops).1.lastSelectedVector = some last ∧
        realDir d ∧
        ∀ p, isVectorInBoard cfg.size p = true →
          ((cellAt (runPlay cfg init ops).1.board p).selectable = true ↔
            ReachableBy cfg.size last d p)) := by
  obtain ⟨hbw, hcase⟩ := selInv_runPlay cfg hcfg init wf ops
  rcases hcase with ⟨⟨hcnt, hlsv, hcw, hselF, hselT⟩, hh⟩ |
    ⟨a, ⟨hcnt, hlsv, hain, hcw, hselIff, hselbIff⟩, hh⟩ |
    ⟨a, d, n, ⟨hd, hn2, hcnt, hbound, hlsv, hcw, hselIff, hselbIff⟩, hh⟩
  · refine ⟨fun _ => hselT, ?_, ?_⟩
    · intro hc
      rw [hcnt] at hc
      omega
    · intro hc
      rw [hcnt] at hc
      omega
  · refine ⟨?_, ?_, ?_⟩
    · intro hc
      rw [hcnt] at hc
      omega
    · intro _
      exact ⟨a, hlsv, hselbIff⟩
    · intro hc
      rw [hcnt] at hc
      omega
  · refine ⟨?_, ?_, ?_⟩
    · intro hc
      rw [hcnt] at hc
      omega
    · intro hc
      rw [hcnt] at hc
      omega
    · intro _
      exact ⟨stepN a d (n - 1), d, hlsv, hd, hselbIff⟩

/-- Witness: the amended selectable rule applied to the concrete two-select
run on the blank 4×4 board. -/
theorem claim4_amended_witness :
    WSConfigWf claim4DemoCfg ∧
    BoardWf claim4DemoCfg.size claim4DemoInit.board ∧
    (((runPlay claim4DemoCfg claim4DemoInit claim4DemoOps).1.selectedCount = 0 →
      ∀ p, isVectorInBoard claim4DemoCfg.size p = true →
        (cellAt (runPlay claim4DemoCfg claim4DemoInit
          claim4DemoOps).1.board p).selectable = true) ∧
    ((runPlay claim4DemoCfg claim4DemoInit claim4DemoOps).1.selectedCount = 1 →
      ∃ a, (runPlay claim4DemoCfg claim4DemoInit
          claim4DemoOps).1.lastSelectedVector = some a ∧
        ∀ p, isVectorInBoard claim4DemoCfg.size p = true →
          ((cellAt (runPlay claim4DemoCfg claim4DemoInit
              claim4DemoOps).1.board p).selectable = true ↔
            ∃ d ∈ claim4DemoCfg.allowedDirections,
              ReachableBy claim4DemoCfg.size a d p)) ∧
    (2 ≤ (runPlay claim4DemoCfg claim4DemoInit claim4DemoOps).1.selectedCount →
      ∃ last d, (runPlay claim4DemoCfg claim4DemoInit
          claim4DemoOps).1.lastSelectedVector = some last ∧
        realDir d ∧
        ∀ p, isVectorInBoard claim4DemoCfg.size p = true →
          ((cellAt (runPlay claim4DemoCfg claim4DemoInit
              claim4DemoOps).1.board p).selectable = true ↔
            ReachableBy claim4DemoCfg.size last d p))) :=
  ⟨by unfold WSConfigWf; decide, by unfold BoardWf; decide,
    claim4_selectables_rule claim4DemoCfg (by unfold WSConfigWf; decide) claim4DemoInit
      (by unfold BoardWf; decide) claim4DemoOps⟩

/-! ## Claim C10 -/

/-- C10: at every point during play, the accumulated current word equals
the concatenation, in selection order, of the letters of the cells marked
selected — the ghost history of `runPlay` records that order, is
duplicate-free, and coincides with the set of selected cells — and the
selection count equals the number of selected cells; appending a reset
clears the accumulated word, the count, and every selected flag together. -/
theorem claim10_selection_accounting (cfg : WSConfig) (hcfg : WSConfigWf cfg)
    (init : WSState) (wf : BoardWf cfg.size init.board) (ops : List PlayOp) :
    (runPlay cfg init ops).1.currentWord =
      lettersAlong (runPlay cfg init ops).1.board (runPlay cfg init ops).2 ∧
    (runPlay cfg init ops).1.selectedCount = (runPlay cfg init ops).2.length ∧
    (runPlay cfg init ops).2.Nodup ∧
    (∀ p, isVectorInBoard cfg.size p = true →
      ((cellAt (runPlay cfg init ops).1.board p).selected = true ↔
        p ∈ (runPlay cfg init ops).2)) ∧
    (runPlay cfg init (ops ++ [PlayOp.resetOp])).1.selectedCount = 0 ∧
    (runPlay cfg init (ops ++ [PlayOp.resetOp])).1.currentWord = [] ∧
    ∀ p, isVectorInBoard cfg.size p = true →
      (cellAt (runPlay cfg init (ops ++ [PlayOp.resetOp])).1.board p).selected =
        false := by
  obtain ⟨hbw, hcase⟩ := selInv_runPlay cfg hcfg init wf ops
  have hsplit : runPlay cfg init (ops ++ [PlayOp.resetOp]) =
      (resetCurrentSelection cfg (runPlay cfg init ops).1, []) := by
    unfold runPlay
    rw [List.foldl_append]
    rfl
  have hres := selInv_reset cfg (runPlay cfg init ops).1 hbw
  obtain ⟨hrwf, hrcase⟩ := hres
  dsimp only at hrcase
  have hidle2 : SelIdle cfg (resetCurrentSelection cfg (runPlay cfg init ops).1) := by
    rcases hrcase with ⟨hi, _⟩ | ⟨a2, _, hh2⟩ | ⟨a2, d2, n2, hdir2, hh2⟩
    · exact hi
    · simp at hh2
    · have hlen := congrArg List.length hh2
      rw [wordPathPos_length] at hlen
      simp at hlen
      obtain ⟨_, hn2, _⟩ := hdir2
      omega
  have hmain : (runPlay cfg init ops).1.currentWord =
      lettersAlong (runPlay cfg init ops).1.board (runPlay cfg init ops).2 ∧
      (runPlay cfg init ops).1.selectedCount = (runPlay cfg init ops).2.length ∧
      (runPlay cfg init ops).2.Nodup ∧
      (∀ p, isVectorInBoard cfg.size p = true →
        ((cellAt (runPlay cfg init ops).1.board p).selected = true ↔
          p ∈ (runPlay cfg init ops).2)) := by
    rcases hcase with ⟨⟨hcnt, hlsv, hcw, hselF, hselT⟩, hh⟩ |
      ⟨a, ⟨hcnt, hlsv, hain, hcw, hselIff, hselbIff⟩, hh⟩ |
      ⟨a, d, n, ⟨hd, hn2, hcnt, hbound, hlsv, hcw, hselIff, hselbIff⟩, hh⟩
    · refine ⟨?_, ?_, ?_, ?_⟩
      · rw [hh, hcw]
        rfl
      · rw [hh, hcnt]
        rfl
      · rw [hh]
        exact List.nodup_nil
      · intro p hp
        rw [hh]
        simp [hselF p hp]
    · refine ⟨?_, ?_, ?_, ?_⟩
      · rw [hh, hcw]
        simp [lettersAlong]
      · rw [hh, hcnt]
        rfl
      · rw [hh]
        simp
      · intro p hp
        rw [hh, hselIff p hp]
        simp
    · refine ⟨?_, ?_, ?_, ?_⟩
      · rw [hh]
        exact hcw
      · rw [hh, hcnt, wordPathPos_length]
      · rw [hh]
        exact wordPathPos_nodup hd n
      · intro p hp
        rw [hh]
        exact hselIff p hp
  obtain ⟨hc1, hc2, hc3, hc4, hc5⟩ := hidle2
  refine ⟨hmain.1, hmain.2.1, hmain.2.2.1, hmain.2.2.2, ?_, ?_, ?_⟩
  · rw [hsplit]
    exact hc1
  · rw [hsplit]
    exact hc3
  · intro p hp
    rw [hsplit]
    exact hc4 p hp

/-- Witness: the selection accounting applied to the concrete one-select
run on the blank 3×3 board. -/
theorem claim10_witness :
    WSConfigWf claim10DemoCfg ∧
    BoardWf claim10DemoCfg.size claim10DemoInit.board ∧
    ((runPlay claim10DemoCfg claim10DemoInit claim10DemoOps).1.currentWord =
      lettersAlong (runPlay claim10DemoCfg claim10DemoInit claim10DemoOps).1.board
        (runPlay claim10DemoCfg claim10DemoInit claim10DemoOps).2 ∧
    (runPlay claim10DemoCfg claim10DemoInit claim10DemoOps).1.selectedCount =
      (runPlay claim10DemoCfg claim10DemoInit claim10DemoOps).2.length ∧
    (runPlay claim10DemoCfg claim10DemoInit claim10DemoOps).2.Nodup ∧
    (∀ p, isVectorInBoard claim10DemoCfg.size p = true →
      ((cellAt (runPlay claim10DemoCfg claim10DemoInit
          claim10DemoOps).1.board p).selected = true ↔
        p ∈ (runPlay claim10DemoCfg claim10DemoInit claim10DemoOps).2)) ∧
    (runPlay claim10DemoCfg claim10DemoInit
      (claim10DemoOps ++ [PlayOp.resetOp])).1.selectedCount = 0 ∧
    (runPlay claim10DemoCfg claim10DemoInit
      (claim10DemoOps ++ [PlayOp.resetOp])).1.currentWord = [] ∧
    ∀ p, isVectorInBoard claim10DemoCfg.size p = true →
      (cellAt (runPlay claim10DemoCfg claim10DemoInit
        (claim10DemoOps ++ [PlayOp.resetOp])).1.board p).selected = false) :=
  ⟨by unfold WSConfigWf; decide, by unfold BoardWf; decide,
    claim10_selection_accounting claim10DemoCfg (by unfold WSConfigWf; decide)
      claim10DemoInit (by unfold BoardWf; decide) claim10DemoOps⟩

end WS
